import Mathlib

/-!
Verification of the circuit-board router (a_star.py, circuit_board.py).

The Python program is shallowly embedded: numpy's 3-D string array becomes a
nested list of strings, Python dicts become insertion-ordered association
lists, and Python's untyped dict keys (which mix integer gate identifiers
with coordinate triples) become the sum type `PyKey`.  Machine integers are
modelled as `Nat`/`Int`; all loops are either structural or fueled.
-/

set_option maxHeartbeats 1000000

namespace CircuitBoard

/-- A grid coordinate, ordered (z, x, y) as in the Python sources. -/
abbrev Coord : Type := Nat × Nat × Nat

/-- Python dict keys that occur in `circuit_board`: gate identifiers (ints)
and board coordinates (tuples).  `needs_connections` is keyed by gate ids,
but `node_neighbors` membership-tests coordinates against it, so the two
key kinds must live in one type, as they do in Python's untyped dicts. -/
inductive PyKey where
  | gateK (g : Nat)
  | nodeK (c : Coord)
deriving DecidableEq, Repr

/-- First-match lookup in an insertion-ordered association list
(Python `d[k]` / `k in d`). -/
def dictGet {α β : Type} [DecidableEq α] : List (α × β) → α → Option β
  | [], _ => none
  | (k, v) :: rest, a => if k = a then some v else dictGet rest a

/-- Python `d[k] = v`: update the existing entry in place (keeping its
position, as Python dicts keep insertion order) or append a new one. -/
def dictSet {α β : Type} [DecidableEq α] : List (α × β) → α → β → List (α × β)
  | [], a, b => [(a, b)]
  | (k, v) :: rest, a, b =>
    if k = a then (k, b) :: rest else (k, v) :: dictSet rest a b

/-- Python `d[k] += delta`.  In the program this is only applied to keys that
are present (every gate occurring in a connection is a `gate_connectors` key);
the `getD 0` fallback is never exercised on those calls. -/
def dictAdd {α : Type} [DecidableEq α] (m : List (α × Int)) (a : α) (delta : Int) :
    List (α × Int) :=
  dictSet m a ((dictGet m a).getD 0 + delta)

/-- Python `k in d`. -/
def dictMem {α β : Type} [DecidableEq α] (m : List (α × β)) (a : α) : Bool :=
  (dictGet m a).isSome

/-- The board array: `board[z][x][y]`, each cell a two-character string. -/
abbrev Grid : Type := List (List (List String))

/-- Reading `board[z][x][y]`.  All reads in the program are guarded to be in
bounds, so the out-of-range default is never exercised. -/
def getCell (g : Grid) (z x y : Nat) : String :=
  (((g.getD z []).getD x []).getD y "")

/-- In-place update of one list position (index out of range: unchanged;
the program only writes in-bounds positions). -/
def listSet {α : Type} : List α → Nat → α → List α
  | [], _, _ => []
  | _ :: rest, 0, b => b :: rest
  | x :: rest, n + 1, b => x :: listSet rest n b

/-- In-place update of one list position through a function. -/
def listModify {α : Type} : List α → Nat → (α → α) → List α
  | [], _, _ => []
  | x :: rest, 0, f => f x :: rest
  | x :: rest, n + 1, f => x :: listModify rest n f

/-- Writing `board[z][x][y] = v`. -/
def setCell (g : Grid) (z x y : Nat) (v : String) : Grid :=
  listModify g z (fun plane => listModify plane x (fun row => listSet row y v))

/-- `np.full(dimensions, '__')`. -/
def fullGrid (dims : Coord) : Grid :=
  List.replicate dims.1 (List.replicate dims.2.1 (List.replicate dims.2.2 "__"))

/-- `np.where(board == name, '__', board)`: elementwise relabelling. -/
def npWhereEq (g : Grid) (name : String) : Grid :=
  g.map (fun plane => plane.map (fun row => row.map
    (fun c => if c = name then "__" else c)))

/-- The `circuit_board` object.  `needs_connections` is the Python dict whose
keys are gate ids (`PyKey.gateK`); values are Python ints. -/
structure Board where
  dimensions : Coord
  gates : List (Nat × Coord)
  connections : List (Nat × Nat)
  board : Grid
  needs_connections : List (PyKey × Int)
  neighbor_of : List (Coord × List Nat)
  free_connectors : List Coord
deriving Repr

/-- `manhattan(start, end)`: sum of per-axis absolute differences. -/
def manhattan (s e : Coord) : Nat :=
  Nat.dist s.1 e.1 + Nat.dist s.2.1 e.2.1 + Nat.dist s.2.2 e.2.2

/-- `check_free_connector`: true iff some gate registered as neighbouring
this connector has a `needs_connections` entry equal to zero. -/
def check_free_connector (b : Board) (connector_node : Coord) : Bool :=
  ((dictGet b.neighbor_of connector_node).getD []).any
    (fun gate => dictGet b.needs_connections (PyKey.gateK gate) == some 0)

/-- The six bounds-and-vacancy-guarded direction checks of `node_neighbors`,
in source order (z+, z-, x+, x-, y+, y-). -/
def rawNeighbors (b : Board) (node : Coord) : List Coord :=
  let bz := b.dimensions.1
  let bx := b.dimensions.2.1
  let by2 := b.dimensions.2.2
  let nz := node.1
  let nx := node.2.1
  let ny := node.2.2
  (if nz < bz - 1 && getCell b.board (nz + 1) nx ny == "__"
    then [(nz + 1, nx, ny)] else []) ++
  (if nz > 0 && nz < bz && getCell b.board (nz - 1) nx ny == "__"
    then [(nz - 1, nx, ny)] else []) ++
  (if nx < bx - 1 && getCell b.board nz (nx + 1) ny == "__"
    then [(nz, nx + 1, ny)] else []) ++
  (if nx > 0 && nx < bx && getCell b.board nz (nx - 1) ny == "__"
    then [(nz, nx - 1, ny)] else []) ++
  (if ny < by2 - 1 && getCell b.board nz nx (ny + 1) == "__"
    then [(nz, nx, ny + 1)] else []) ++
  (if ny > 0 && ny < by2 && getCell b.board nz nx (ny - 1) == "__"
    then [(nz, nx, ny - 1)] else [])

/-- Python `list.remove(x)`: drop the first occurrence (no-op if absent;
in the program the element is always present). -/
def removeFirst {α : Type} [DecidableEq α] : List α → α → List α
  | [], _ => []
  | x :: rest, a => if x = a then rest else x :: removeFirst rest a

theorem removeFirst_length_le {α : Type} [DecidableEq α] (l : List α) (a : α) :
    (removeFirst l a).length ≤ l.length := by
  induction l with
  | nil => simp [removeFirst]
  | cons x rest ih =>
    by_cases h : x = a
    · simp only [removeFirst, h, if_pos, List.length_cons]; omega
    · simp only [removeFirst, h, if_neg, not_false_iff, List.length_cons]; omega

/-- Python's `for node in neighbors: ... neighbors.remove(node)` loop: the
iterator advances by index while the list may shrink under it.  The loop
makes at most `l.length` iterations (the index rises by one each time and
the length never grows), so structural fuel of the initial length is exact. -/
def pyForRemove {α : Type} [DecidableEq α] (p : α → Bool) :
    Nat → List α → Nat → List α
  | 0, l, _ => l
  | fuel + 1, l, i =>
    if h : i < l.length then
      pyForRemove p fuel
        (if p (l.get ⟨i, h⟩) then removeFirst l (l.get ⟨i, h⟩) else l) (i + 1)
    else l

/-- The removal predicate of `node_neighbors`'s filter loop: the neighbour is
membership-tested as a key of the gate-id-keyed dict `needs_connections`. -/
def contentionHit (b : Board) (node : Coord) : Bool :=
  dictMem b.needs_connections (PyKey.nodeK node) && !(check_free_connector b node)

/-- `node_neighbors`: the six guarded candidates, then the connector filter
loop (which removes while iterating). -/
def node_neighbors (b : Board) (node : Coord) : List Coord :=
  pyForRemove (contentionHit b) (rawNeighbors b node).length (rawNeighbors b node) 0

/-- `gate_connectors`: tally how many connections each gate requires. -/
def gate_connectors (connections : List (Nat × Nat)) : List (PyKey × Int) :=
  connections.foldl
    (fun counts pair =>
      dictAdd (dictAdd counts (PyKey.gateK pair.1) 1) (PyKey.gateK pair.2) 1)
    []

/-- `set_node(loc, val)`. -/
def set_node (g : Grid) (loc : Coord) (v : String) : Grid :=
  setCell g loc.1 loc.2.1 loc.2.2 v

/-- `reset_board` of `__init__`: all-empty grid, gates placed, connection
counts, then the `neighbor_of` map and `free_connectors` set built from
`node_neighbors` of each gate (the gate dict is iterated in insertion
order; the Python set `free_connectors` is modelled as a dedup list, it is
never read by the program).  At the two `node_neighbors` calls below,
`neighbor_of` is not yet assigned in Python; the calls never consult it
because the connector test never fires, and the partial object here carries
`[]` in that field. -/
def mkBoard (gates : List (Nat × Coord)) (connections : List (Nat × Nat))
    (dims : Coord) : Board :=
  let g0 := gates.foldl (fun g gl => set_node g gl.2 "GA") (fullGrid dims)
  let needs := gate_connectors connections
  let tmp : Board :=
    { dimensions := dims, gates := gates, connections := connections,
      board := g0, needs_connections := needs, neighbor_of := [],
      free_connectors := [] }
  let nbof := gates.foldl
    (fun m gl =>
      (node_neighbors tmp gl.2).foldl
        (fun m nb =>
          match dictGet m nb with
          | some l => dictSet m nb (l ++ [gl.1])
          | none => dictSet m nb [gl.1]) m)
    []
  let free := gates.foldl
    (fun s gl =>
      (node_neighbors tmp gl.2).foldl
        (fun s nb => if s.contains nb then s else s ++ [nb]) s)
    []
  { tmp with neighbor_of := nbof, free_connectors := free }

end CircuitBoard

namespace CircuitBoard

/-! ### The connector filter of `node_neighbors` -/

theorem pyForRemove_no_hit {α : Type} [DecidableEq α] (p : α → Bool) (fuel : Nat)
    (l : List α) (i : Nat) (h : ∀ x ∈ l, p x = false) :
    pyForRemove p fuel l i = l := by
  induction fuel generalizing l i with
  | zero => rfl
  | succ fuel ih =>
    rw [pyForRemove]
    split
    · next hi =>
      have hx : p (l.get ⟨i, hi⟩) = false := h _ (l.get_mem _ _)
      simp only [hx, Bool.false_eq_true, if_neg, not_false_iff]
      exact ih l (i + 1) h
    · rfl

/-- All keys of `needs_connections` are gate identifiers.  This holds for
every board the program constructs, because `gate_connectors` only ever
inserts `PyKey.gateK` keys. -/
def gateKeyed (b : Board) : Prop :=
  ∀ kv ∈ b.needs_connections, ∃ g, kv.1 = PyKey.gateK g

theorem dictGet_nodeK_of_gateKeyed (b : Board) (h : gateKeyed b) (c : Coord) :
    dictGet b.needs_connections (PyKey.nodeK c) = none := by
  revert h
  unfold gateKeyed
  induction b.needs_connections with
  | nil => intro _; rfl
  | cons kv rest ih =>
    intro h
    obtain ⟨g, hg⟩ := h kv (List.mem_cons_self kv rest)
    rw [dictGet]
    rw [if_neg (by rw [hg]; intro hcon; cases hcon)]
    exact ih (fun kv2 hkv2 => h kv2 (List.mem_cons_of_mem _ hkv2))

theorem contentionHit_false (b : Board) (h : gateKeyed b) (c : Coord) :
    contentionHit b c = false := by
  unfold contentionHit dictMem
  rw [dictGet_nodeK_of_gateKeyed b h c]
  rfl

/-- On every board whose `needs_connections` keys are gate ids — i.e. every
board the program builds — the connector filter of `node_neighbors` never
removes anything: the membership test compares a coordinate against gate-id
keys and always fails. -/
theorem node_neighbors_eq_raw (b : Board) (h : gateKeyed b) (node : Coord) :
    node_neighbors b node = rawNeighbors b node :=
  pyForRemove_no_hit _ _ _ _ (fun x _ => contentionHit_false b h x)

theorem dictAdd_gateKeyed (m : List (PyKey × Int)) (g : Nat) (d : Int)
    (h : ∀ kv ∈ m, ∃ g2, kv.1 = PyKey.gateK g2) :
    ∀ kv ∈ dictAdd m (PyKey.gateK g) d, ∃ g2, kv.1 = PyKey.gateK g2 := by
  unfold dictAdd
  generalize (dictGet m (PyKey.gateK g)).getD 0 + d = v
  induction m with
  | nil =>
    intro kv hkv
    simp only [dictSet, List.mem_singleton] at hkv
    exact ⟨g, by rw [hkv]⟩
  | cons kv0 rest ih =>
    intro kv hkv
    rw [dictSet] at hkv
    by_cases he : kv0.1 = PyKey.gateK g
    · rw [if_pos he] at hkv
      rcases List.mem_cons.mp hkv with h1 | h2
      · exact ⟨g, by rw [h1, he]⟩
      · exact h kv (List.mem_cons_of_mem _ h2)
    · rw [if_neg he] at hkv
      rcases List.mem_cons.mp hkv with h1 | h2
      · exact h kv (h1 ▸ List.mem_cons_self _ _)
      · exact ih (fun kv2 hkv2 => h kv2 (List.mem_cons_of_mem _ hkv2)) kv h2

theorem gate_connectors_gateKeyed (connections : List (Nat × Nat)) :
    ∀ kv ∈ gate_connectors connections, ∃ g, kv.1 = PyKey.gateK g := by
  unfold gate_connectors
  have main : ∀ (l : List (Nat × Nat)) (acc : List (PyKey × Int)),
      (∀ kv ∈ acc, ∃ g, kv.1 = PyKey.gateK g) →
      ∀ kv ∈ l.foldl (fun counts pair =>
        dictAdd (dictAdd counts (PyKey.gateK pair.1) 1) (PyKey.gateK pair.2) 1) acc,
        ∃ g, kv.1 = PyKey.gateK g := by
    intro l
    induction l with
    | nil => intro acc hacc kv hkv; exact hacc kv hkv
    | cons pair rest ih =>
      intro acc hacc kv hkv
      exact ih _ (dictAdd_gateKeyed _ _ _ (dictAdd_gateKeyed _ _ _ hacc)) kv hkv
  exact main connections [] (by intro kv hkv; cases hkv)

theorem mkBoard_gateKeyed (gates : List (Nat × Coord))
    (connections : List (Nat × Nat)) (dims : Coord) :
    gateKeyed (mkBoard gates connections dims) := by
  intro kv hkv
  exact gate_connectors_gateKeyed connections kv hkv

/-- The failing input for the connector-contention claim: a 1x3x3 board with
two gates that each still require one connection. -/
def cexC1 : Board := mkBoard [(1, (0, 0, 0)), (2, (0, 2, 2))] [(1, 2)] (1, 3, 3)

end CircuitBoard

namespace CircuitBoard

/-- C1: FALSIFIED ON THE CODE (code bug).  On the 1x3x3 board `cexC1`, cell
(0,2,1) is a registered connector whose only registered neighbouring gate
(gate 2) still requires one connection — `check_free_connector` is false —
yet `node_neighbors` at (0,1,1) still includes (0,2,1): the filter's
membership test `node in needs_connections` compares a coordinate against
gate-id keys and never fires, so no connector is ever excluded, during
construction or search alike. -/
theorem C1_connector_contention_not_enforced :
    ((0, 2, 1) : Coord) ∈ node_neighbors cexC1 (0, 1, 1) ∧
    dictGet cexC1.neighbor_of (0, 2, 1) = some [2] ∧
    dictGet cexC1.needs_connections (PyKey.gateK 2) = some 1 ∧
    check_free_connector cexC1 (0, 2, 1) = false := by decide

end CircuitBoard

namespace CircuitBoard

/-! ### The A* search of a_star.py -/

/-- The transient search state: closed and open sets, back-pointers, g- and
f-score dicts (insertion-ordered, as Python dicts are). -/
structure AState where
  cl : List Coord
  op : List Coord
  cf : List (Coord × Coord)
  g : List (Coord × Nat)
  f : List (Coord × Nat)
deriving Repr, DecidableEq

/-- Result of `search`: a path, the `False` no-path result, a raised Python
exception (`min` of an empty sequence or a missing `g_score` key), or fuel
exhaustion — the last is a modelling artifact only, the Python loop has no
fuel. -/
inductive SearchRes where
  | found (p : List Coord)
  | noPath
  | pyerr
  | outOfFuel
deriving DecidableEq, Repr

/-- `min(fscores, key=fscores.get)`: the first key attaining the minimal
value in iteration (= insertion) order; `none` on an empty dict, where
Python raises ValueError. -/
def minEntry (l : List (Coord × Nat)) : Option (Coord × Nat) :=
  l.foldl
    (fun acc kv =>
      match acc with
      | none => some kv
      | some best => if kv.2 < best.2 then some kv else acc)
    none

/-- `reconstruct_path`: follow the back-pointers from `current`, collecting
[current, parent, grandparent, ...].  The Python `while` has no fuel; a
back-pointer chain is always acyclic in reachable states, and the caller
passes fuel `cf.length + 1`, enough for any acyclic chain. -/
def reconstruct_path (cf : List (Coord × Coord)) : Nat → Coord → Option (List Coord)
  | 0, _ => none
  | fuel + 1, current =>
    match dictGet cf current with
    | none => some [current]
    | some parent =>
      match reconstruct_path cf fuel parent with
      | some rest => some (current :: rest)
      | none => none

/-- The body of `for neighbor in node_neighbors(...)` in `search`: skip
closed neighbours, add to the open set, then the tentative-g-score test with
Python's `g_score.get(neighbor, 1000)` default; `g_score[current]` raises
KeyError when absent (the error case, never reached from `search`). -/
def expandStep (goal current : Coord) (st : AState) (nb : Coord) :
    Except Unit AState :=
  if st.cl.contains nb then .ok st
  else
    let op2 := if st.op.contains nb then st.op else st.op ++ [nb]
    match dictGet st.g current with
    | none => .error ()
    | some gc =>
      let tent := gc + manhattan current nb
      if tent ≥ (dictGet st.g nb).getD 1000 then .ok { st with op := op2 }
      else
        .ok { st with
          op := op2,
          cf := dictSet st.cf nb current,
          g := dictSet st.g nb tent,
          f := dictSet st.f nb (tent + manhattan nb goal) }

/-- The whole neighbour loop of one expansion. -/
def expandLoop (goal current : Coord) (st : AState) :
    List Coord → Except Unit AState
  | [] => .ok st
  | nb :: rest =>
    match expandStep goal current st nb with
    | .error e => .error e
    | .ok st2 => expandLoop goal current st2 rest

/-- One `while open_set != set()` iteration of `search`, with fuel counting
iterations.  Mirrors the source order: emptiness test, f-score restriction
to the open set, `min`, goal test (path reconstruction happens before any
bookkeeping), then close `current` and expand its neighbours. -/
def searchLoop (b : Board) (goal : Coord) : Nat → AState → SearchRes
  | fuel, st =>
    if st.op.isEmpty then .noPath
    else
      match fuel with
      | 0 => .outOfFuel
      | fuel + 1 =>
        let fscores := st.f.filter (fun kv => st.op.contains kv.1)
        match minEntry fscores with
        | none => .pyerr
        | some (current, _) =>
          if current = goal then
            match reconstruct_path st.cf (st.cf.length + 1) current with
            | some p => .found p
            | none => .outOfFuel
          else
            let st1 : AState :=
              { st with op := st.op.erase current, cl := st.cl ++ [current] }
            match expandLoop goal current st1 (node_neighbors b current) with
            | .error _ => .pyerr
            | .ok st2 => searchLoop b goal fuel st2

/-- `search(start, goal, c_board)` with explicit iteration fuel.  Each
iteration moves a fresh node into the closed set, so any fuel of at least
(number of grid cells + 1) is enough; `boardFuel` provides it. -/
def search (start goal : Coord) (b : Board) (fuel : Nat) : SearchRes :=
  searchLoop b goal fuel
    { cl := [], op := [start], cf := [],
      g := [(start, 0)], f := [(start, manhattan start goal)] }

/-- The canonical fuel: one more than the number of cells of the board. -/
def boardFuel (b : Board) : Nat :=
  b.dimensions.1 * b.dimensions.2.1 * b.dimensions.2.2 + 1

end CircuitBoard

namespace CircuitBoard

/-! ### connect_gates (the pair router) -/

/-- `self.gates[g]`.  The program only looks up registered gates; the
default is never exercised on its calls. -/
def gateLoc (b : Board) (g : Nat) : Coord := (dictGet b.gates g).getD (0, 0, 0)

/-- One iteration of the nested combination loop of `connect_gates`:
`if path != False and best == []: best = path; continue` then
`if path != False and len(path) < len(best): best = path`.
A raised exception inside `search` propagates. -/
def cgStep (b : Board) (best : List Coord) (pr : Coord × Coord) :
    Except Unit (List Coord) :=
  match search pr.1 pr.2 b (boardFuel b) with
  | .found p =>
    if best = [] then .ok p
    else if p.length < best.length then .ok p else .ok best
  | .noPath => .ok best
  | .pyerr => .error ()
  | .outOfFuel => .error ()

/-- The (departure, arrival) combinations in source order: outer loop over
the start gate's neighbours, inner loop over the end gate's neighbours. -/
def cgPairs (b : Board) (gs : Nat × Nat) : List (Coord × Coord) :=
  (node_neighbors b (gateLoc b gs.1)).flatMap
    (fun a => (node_neighbors b (gateLoc b gs.2)).map (fun c => (a, c)))

/-- `connect_gates(gates)`: fold the combination loop from `best = []`. -/
def connect_gates (b : Board) (gs : Nat × Nat) : Except Unit (List Coord) :=
  (cgPairs b gs).foldlM (cgStep b) []

/-- The search outcome of every combination, in enumeration order. -/
def cgResults (b : Board) (gs : Nat × Nat) : List SearchRes :=
  (cgPairs b gs).map (fun pr => search pr.1 pr.2 b (boardFuel b))

/-- A search outcome as an optional path. -/
def resPath : SearchRes → Option (List Coord)
  | .found p => some p
  | _ => none

/-- Modelled from the spec (§4.3): the shortest successful path over the
combinations, retaining the first found on ties, and the empty result when
no combination succeeds. -/
def spec_firstShortest : List (Option (List Coord)) → List Coord
  | [] => []
  | none :: rs => spec_firstShortest rs
  | some p :: rs =>
    let rest := spec_firstShortest rs
    if rest = [] then p
    else if p.length ≤ rest.length then p
    else rest

theorem sfs_cons_none (rs : List (Option (List Coord))) :
    spec_firstShortest (none :: rs) = spec_firstShortest rs := rfl

theorem sfs_cons_some (p : List Coord) (rs : List (Option (List Coord))) :
    spec_firstShortest (some p :: rs) =
      (if spec_firstShortest rs = [] then p
       else if p.length ≤ (spec_firstShortest rs).length then p
       else spec_firstShortest rs) := rfl

end CircuitBoard

namespace CircuitBoard

theorem reconstruct_path_ne_nil (cf : List (Coord × Coord)) (fuel : Nat)
    (c : Coord) (p : List Coord) (h : reconstruct_path cf fuel c = some p) :
    p ≠ [] := by
  cases fuel with
  | zero => cases h
  | succ fuel =>
    rw [reconstruct_path] at h
    split at h
    · cases h; simp
    · split at h
      · cases h; simp
      · cases h

theorem searchLoop_found_ne_nil (b : Board) (goal : Coord) (fuel : Nat) :
    ∀ st p, searchLoop b goal fuel st = .found p → p ≠ [] := by
  induction fuel with
  | zero =>
    intro st p h
    rw [searchLoop] at h
    by_cases he : st.op.isEmpty <;> simp [he] at h
  | succ fuel ih =>
    intro st p h
    rw [searchLoop] at h
    by_cases he : st.op.isEmpty
    · simp [he] at h
    · simp only [he, if_neg, Bool.false_eq_true, not_false_iff] at h
      cases hm : minEntry (st.f.filter (fun kv => st.op.contains kv.1)) with
      | none => rw [hm] at h; cases h
      | some cv =>
        rw [hm] at h
        by_cases hg : cv.1 = goal
        · simp only [hg, if_pos] at h
          cases hr : reconstruct_path st.cf (st.cf.length + 1) goal with
          | none => rw [hr] at h; cases h
          | some q =>
            rw [hr] at h
            cases h
            exact reconstruct_path_ne_nil _ _ _ _ hr
        · simp only [hg, if_neg, not_false_iff] at h
          cases hx : expandLoop goal cv.1
              { st with op := st.op.erase cv.1, cl := st.cl ++ [cv.1] }
              (node_neighbors b cv.1) with
          | error e => rw [hx] at h; cases h
          | ok st2 => rw [hx] at h; exact ih st2 p h

theorem search_found_ne_nil (start goal : Coord) (b : Board) (fuel : Nat)
    (p : List Coord) (h : search start goal b fuel = .found p) : p ≠ [] :=
  searchLoop_found_ne_nil b goal fuel _ p h

/-- The pure value step of the `connect_gates` fold. -/
def pyBest (best : List Coord) (r : Option (List Coord)) : List Coord :=
  match r with
  | none => best
  | some p => if best = [] then p else if p.length < best.length then p else best

theorem spec_firstShortest_ne_nil (rs : List (Option (List Coord)))
    (hne : ∀ p, some p ∈ rs → p ≠ []) :
    spec_firstShortest rs = [] ∨
      ∃ p, some p ∈ rs ∧ spec_firstShortest rs = p := by
  induction rs with
  | nil => left; rfl
  | cons r rest ih =>
    have hne2 : ∀ p, some p ∈ rest → p ≠ [] :=
      fun p hp => hne p (List.mem_cons_of_mem _ hp)
    cases r with
    | none =>
      rw [spec_firstShortest]
      rcases ih hne2 with h | ⟨p, hp, he⟩
      · left; exact h
      · right; exact ⟨p, List.mem_cons_of_mem _ hp, he⟩
    | some q =>
      rw [spec_firstShortest]
      rcases ih hne2 with h | ⟨p, hp, he⟩
      · right
        refine ⟨q, List.mem_cons_self _ _, ?_⟩
        simp only [h, if_pos]
      · right
        by_cases h0 : spec_firstShortest rest = []
        · exact ⟨q, List.mem_cons_self _ _, by simp only [h0, if_pos]⟩
        · by_cases hl : q.length ≤ (spec_firstShortest rest).length
          · exact ⟨q, List.mem_cons_self _ _, by simp only [h0, hl, if_neg, if_pos,
              not_false_iff]⟩
          · exact ⟨p, List.mem_cons_of_mem _ hp, by
              simp only [h0, hl, if_neg, not_false_iff]; exact he⟩

theorem pyBest_foldl_char (rs : List (Option (List Coord)))
    (hne : ∀ p, some p ∈ rs → p ≠ []) :
    ∀ best, best ≠ [] →
      rs.foldl pyBest best =
        (if spec_firstShortest rs = [] then best
         else if (spec_firstShortest rs).length < best.length
           then spec_firstShortest rs else best) := by
  induction rs with
  | nil => intro best hb; simp [spec_firstShortest]
  | cons r rest ih =>
    intro best hb
    have hne2 : ∀ p, some p ∈ rest → p ≠ [] :=
      fun p hp => hne p (List.mem_cons_of_mem _ hp)
    have hsne : spec_firstShortest rest = [] ∨
        (spec_firstShortest rest ≠ []) := by tauto
    cases r with
    | none =>
      rw [List.foldl_cons]
      show rest.foldl pyBest best = _
      rw [ih hne2 best hb]
      rfl
    | some p =>
      have hp : p ≠ [] := hne p (List.mem_cons_self _ _)
      rw [List.foldl_cons]
      have hstep : pyBest best (some p) =
          (if p.length < best.length then p else best) := by
        show (if best = [] then p else if p.length < best.length then p
          else best) = _
        rw [if_neg hb]
      rw [hstep]
      by_cases hc : p.length < best.length
      · rw [if_pos hc, ih hne2 p hp, sfs_cons_some]
        rcases hsne with h0 | h0
        · simp only [h0, if_pos]
          simp only [hp, if_neg, hc, if_pos, not_false_iff]
        · by_cases hl : p.length ≤ (spec_firstShortest rest).length
          · simp only [h0, hl, if_neg, if_pos, not_false_iff]
            have : ¬ (spec_firstShortest rest).length < p.length := by omega
            simp only [this, if_neg, not_false_iff]
            simp only [hp, if_neg, hc, if_pos, not_false_iff]
          · have hlt : (spec_firstShortest rest).length < p.length := by omega
            simp only [h0, hl, if_neg, not_false_iff]
            have h2 : (spec_firstShortest rest).length < best.length := by omega
            simp only [hlt, if_pos, h0, h2]
      · rw [if_neg hc, ih hne2 best hb]
        rw [sfs_cons_some]
        rcases hsne with h0 | h0
        · simp only [h0, if_pos]
          have : ¬ p.length < best.length := hc
          simp only [hp, this, if_neg, not_false_iff]
        · by_cases hl : p.length ≤ (spec_firstShortest rest).length
          · simp only [h0, hl, if_neg, if_pos, not_false_iff, hp]
            have h2 : ¬ (spec_firstShortest rest).length < best.length := by omega
            have h3 : ¬ p.length < best.length := hc
            simp only [h2, h3, if_neg, not_false_iff]
          · simp only [h0, hl, if_neg, not_false_iff]

theorem pyBest_foldl_nil (rs : List (Option (List Coord)))
    (hne : ∀ p, some p ∈ rs → p ≠ []) :
    rs.foldl pyBest [] = spec_firstShortest rs := by
  induction rs with
  | nil => rfl
  | cons r rest ih =>
    have hne2 : ∀ p, some p ∈ rest → p ≠ [] :=
      fun p hp => hne p (List.mem_cons_of_mem _ hp)
    cases r with
    | none =>
      rw [List.foldl_cons]
      show rest.foldl pyBest [] = _
      rw [ih hne2]; rfl
    | some p =>
      have hp : p ≠ [] := hne p (List.mem_cons_self _ _)
      rw [List.foldl_cons]
      show rest.foldl pyBest (pyBest [] (some p)) = _
      have hstep : pyBest [] (some p) = p := rfl
      rw [hstep, pyBest_foldl_char rest hne2 p hp, sfs_cons_some]
      by_cases h0 : spec_firstShortest rest = []
      · simp only [h0, if_pos]
      · by_cases hl : p.length ≤ (spec_firstShortest rest).length
        · have : ¬ (spec_firstShortest rest).length < p.length := by omega
          simp only [h0, hl, this, if_neg, if_pos, not_false_iff]
        · have : (spec_firstShortest rest).length < p.length := by omega
          simp only [h0, hl, this, if_neg, if_pos, not_false_iff]

theorem connect_gates_foldl (b : Board) (gs : Nat × Nat)
    (h : ∀ r ∈ cgResults b gs, r ≠ .pyerr ∧ r ≠ .outOfFuel) :
    ∀ best, (cgPairs b gs).foldlM (cgStep b) best =
      .ok (((cgPairs b gs).map
        (fun pr => resPath (search pr.1 pr.2 b (boardFuel b)))).foldl pyBest best) := by
  have main : ∀ (prs : List (Coord × Coord)),
      (∀ pr ∈ prs, search pr.1 pr.2 b (boardFuel b) ≠ .pyerr ∧
        search pr.1 pr.2 b (boardFuel b) ≠ .outOfFuel) →
      ∀ best, prs.foldlM (cgStep b) best =
        .ok ((prs.map
          (fun pr => resPath (search pr.1 pr.2 b (boardFuel b)))).foldl pyBest best) := by
    intro prs
    induction prs with
    | nil => intro _ best; rfl
    | cons pr rest ih =>
      intro hprs best
      have h1 := hprs pr (List.mem_cons_self _ _)
      have h2 : ∀ q ∈ rest, search q.1 q.2 b (boardFuel b) ≠ .pyerr ∧
          search q.1 q.2 b (boardFuel b) ≠ .outOfFuel :=
        fun q hq => hprs q (List.mem_cons_of_mem _ hq)
      rw [List.foldlM_cons, List.map_cons, List.foldl_cons]
      cases hs : search pr.1 pr.2 b (boardFuel b) with
      | found p =>
        have : cgStep b best pr =
            .ok (if best = [] then p else if p.length < best.length then p
              else best) := by
          unfold cgStep
          rw [hs]
          by_cases hb : best = [] <;> simp [hb]
          exact (apply_ite Except.ok _ _ _).symm
        rw [this]
        show rest.foldlM (cgStep b) _ = _
        rw [ih h2]
        rfl
      | noPath =>
        have : cgStep b best pr = .ok best := by unfold cgStep; rw [hs]
        rw [this]
        show rest.foldlM (cgStep b) _ = _
        rw [ih h2]
        rfl
      | pyerr => exact absurd hs (by intro hc; exact (h1.1 (by rw [hc])))
      | outOfFuel => exact absurd hs (by intro hc; exact (h1.2 (by rw [hc])))
  intro best
  refine main (cgPairs b gs) ?_ best
  intro pr hpr
  exact h _ (List.mem_map_of_mem _ hpr)

/-- C4: for a gate pair whose pathfinder calls all terminate normally (no
Python exception, enough fuel), `connect_gates` returns exactly the
spec-side selection: the shortest successful path over all combinations in
start-gate-neighbour-major order, first found retained on ties, and the
empty result when no combination succeeds. -/
theorem C4_connect_gates_first_shortest (b : Board) (gs : Nat × Nat)
    (h : ∀ r ∈ cgResults b gs, r ≠ .pyerr ∧ r ≠ .outOfFuel) :
    connect_gates b gs = .ok (spec_firstShortest ((cgResults b gs).map resPath)) := by
  unfold connect_gates
  rw [connect_gates_foldl b gs h []]
  have hmap : (cgResults b gs).map resPath =
      (cgPairs b gs).map (fun pr => resPath (search pr.1 pr.2 b (boardFuel b))) := by
    unfold cgResults
    rw [List.map_map]
    rfl
  rw [← hmap, pyBest_foldl_nil]
  intro p hp
  rcases List.mem_map.mp hp with ⟨r, hr, hrp⟩
  rcases List.mem_map.mp hr with ⟨pr, hpr, hrs⟩
  cases r with
  | found q =>
    cases hrp2 : q with
    | nil =>
      subst hrp2
      exact absurd hrs.symm
        (by intro hc; exact search_found_ne_nil _ _ _ _ _ hc.symm rfl)
    | cons a l =>
      have : some q = some p := by rw [← hrp]; rfl
      cases this
      rw [hrp2]
      simp
  | noPath => cases hrp
  | pyerr => cases hrp
  | outOfFuel => cases hrp

end CircuitBoard

namespace CircuitBoard

/-- A 1x2x2 board with two diagonal gates sharing their two connector
cells, and one required connection. -/
def wb4 : Board := mkBoard [(1, (0, 0, 0)), (2, (0, 1, 1))] [(1, 2)] (1, 2, 2)

theorem C4_connect_gates_first_shortest_witness :
    (∀ r ∈ cgResults wb4 (1, 2), r ≠ SearchRes.pyerr ∧ r ≠ SearchRes.outOfFuel) ∧
    connect_gates wb4 (1, 2) =
      .ok (spec_firstShortest ((cgResults wb4 (1, 2)).map resPath)) :=
  ⟨by decide, C4_connect_gates_first_shortest wb4 (1, 2) (by decide)⟩

end CircuitBoard

namespace CircuitBoard

/-! ### Dictionary lemmas -/

theorem dictGet_dictSet_self {α β : Type} [DecidableEq α]
    (m : List (α × β)) (k : α) (v : β) : dictGet (dictSet m k v) k = some v := by
  induction m with
  | nil => simp [dictSet, dictGet]
  | cons kv rest ih =>
    by_cases h : kv.1 = k
    · cases kv; simp_all [dictSet, dictGet]
    · cases kv; simp_all [dictSet, dictGet]

theorem dictGet_dictSet_ne {α β : Type} [DecidableEq α]
    (m : List (α × β)) (k k2 : α) (v : β) (h : k ≠ k2) :
    dictGet (dictSet m k v) k2 = dictGet m k2 := by
  induction m with
  | nil => simp [dictSet, dictGet, h]
  | cons kv rest ih =>
    by_cases he : kv.1 = k
    · cases kv; simp_all [dictSet, dictGet]
    · cases kv; simp_all [dictSet, dictGet]

theorem dictSet_dictSet {α β : Type} [DecidableEq α]
    (m : List (α × β)) (k : α) (v1 v2 : β) :
    dictSet (dictSet m k v1) k v2 = dictSet m k v2 := by
  induction m with
  | nil => simp [dictSet]
  | cons kv rest ih =>
    by_cases he : kv.1 = k
    · cases kv; simp_all [dictSet]
    · cases kv; simp_all [dictSet]

/-- Updates at two distinct keys commute when the first key is present
(present keys are updated in place, so no append-order question arises). -/
theorem dictSet_comm {α β : Type} [DecidableEq α]
    (m : List (α × β)) (k1 k2 : α) (v1 v2 w1 : β) (h : k1 ≠ k2)
    (h1m : dictGet m k1 = some w1) :
    dictSet (dictSet m k1 v1) k2 v2 = dictSet (dictSet m k2 v2) k1 v1 := by
  induction m with
  | nil => cases h1m
  | cons kv rest ih =>
    obtain ⟨k0, v0⟩ := kv
    by_cases h1 : k0 = k1
    · subst h1
      simp [dictSet, h]
    · by_cases h2 : k0 = k2
      · subst h2
        simp [dictSet, h1]
      · simp only [dictGet, h1, if_neg, not_false_iff] at h1m
        simp [dictSet, h1, h2, ih h1m]

theorem dictSet_same {α β : Type} [DecidableEq α]
    (m : List (α × β)) (k : α) (v : β) (h : dictGet m k = some v) :
    dictSet m k v = m := by
  induction m with
  | nil => cases h
  | cons kv rest ih =>
    by_cases he : kv.1 = k
    · cases kv
      simp_all [dictSet, dictGet]
    · cases kv
      simp_all [dictSet, dictGet]

/-- Decrementing then incrementing two (possibly equal) existing keys in the
interleaved order of paint/undo leaves the dict unchanged, entry order
included. -/
theorem dictAdd_present {α : Type} [DecidableEq α] (m : List (α × Int)) (k : α)
    (v d : Int) (h : dictGet m k = some v) : dictAdd m k d = dictSet m k (v + d) := by
  unfold dictAdd
  rw [h]
  rfl

theorem dictAdd_cancel (m : List (PyKey × Int)) (a b2 : PyKey) (va vb : Int)
    (ha : dictGet m a = some va) (hb : dictGet m b2 = some vb) :
    dictAdd (dictAdd (dictAdd (dictAdd m a (-1)) b2 (-1)) a 1) b2 1 = m := by
  by_cases he : a = b2
  · subst he
    rw [ha] at hb
    cases hb
    rw [dictAdd_present m a va (-1) ha]
    rw [dictAdd_present _ a (va + -1) (-1) (dictGet_dictSet_self _ _ _),
      dictSet_dictSet]
    rw [dictAdd_present _ a (va + -1 + -1) 1 (dictGet_dictSet_self _ _ _),
      dictSet_dictSet]
    rw [dictAdd_present _ a (va + -1 + -1 + 1) 1 (dictGet_dictSet_self _ _ _),
      dictSet_dictSet]
    have : va + -1 + -1 + 1 + 1 = va := by ring
    rw [this, dictSet_same m a va ha]
  · rw [dictAdd_present m a va (-1) ha]
    have gb1 : dictGet (dictSet m a (va + -1)) b2 = some vb := by
      rw [dictGet_dictSet_ne _ _ _ _ he]; exact hb
    rw [dictAdd_present _ b2 vb (-1) gb1]
    have ga2 : dictGet (dictSet (dictSet m a (va + -1)) b2 (vb + -1)) a =
        some (va + -1) := by
      rw [dictGet_dictSet_ne _ _ _ _ (Ne.symm he)]
      exact dictGet_dictSet_self _ _ _
    rw [dictAdd_present _ a (va + -1) 1 ga2]
    have hs1 : va + -1 + 1 = va := by ring
    rw [hs1]
    have gb3 : dictGet (dictSet (dictSet (dictSet m a (va + -1)) b2 (vb + -1)) a va)
        b2 = some (vb + -1) := by
      rw [dictGet_dictSet_ne _ _ _ _ he]
      exact dictGet_dictSet_self _ _ _
    rw [dictAdd_present _ b2 (vb + -1) 1 gb3]
    have hs2 : vb + -1 + 1 = vb := by ring
    rw [hs2]
    rw [dictSet_comm (dictSet m a (va + -1)) b2 a (vb + -1) va vb (Ne.symm he) gb1]
    rw [dictSet_dictSet, dictSet_dictSet, dictSet_same m a va ha,
      dictSet_same m b2 vb hb]

end CircuitBoard

namespace CircuitBoard

/-! ### Grid lemmas -/

theorem listSet_getD_self {α : Type} (l : List α) (y : Nat) (v d : α)
    (h : y < l.length) : (listSet l y v).getD y d = v := by
  induction l generalizing y with
  | nil => cases h
  | cons x rest ih =>
    cases y with
    | zero => rfl
    | succ y => exact ih y (by simpa using h)

theorem listSet_getD_ne {α : Type} (l : List α) (y y2 : Nat) (v d : α)
    (h : y2 ≠ y) : (listSet l y v).getD y2 d = l.getD y2 d := by
  induction l generalizing y y2 with
  | nil => cases y <;> rfl
  | cons x rest ih =>
    cases y with
    | zero => cases y2 with
      | zero => exact absurd rfl h
      | succ y2 => rfl
    | succ y =>
      cases y2 with
      | zero => rfl
      | succ y2 => exact ih y y2 (fun he => h (by rw [he]))

theorem listModify_getD_self {α : Type} (l : List α) (i : Nat) (f : α → α)
    (d : α) (h : i < l.length) :
    (listModify l i f).getD i d = f (l.getD i d) := by
  induction l generalizing i with
  | nil => cases h
  | cons x rest ih =>
    cases i with
    | zero => rfl
    | succ i => exact ih i (by simpa using h)

theorem listModify_getD_ne {α : Type} (l : List α) (i i2 : Nat) (f : α → α)
    (d : α) (h : i2 ≠ i) : (listModify l i f).getD i2 d = l.getD i2 d := by
  induction l generalizing i i2 with
  | nil => cases i <;> rfl
  | cons x rest ih =>
    cases i with
    | zero => cases i2 with
      | zero => exact absurd rfl h
      | succ i2 => rfl
    | succ i =>
      cases i2 with
      | zero => rfl
      | succ i2 => exact ih i i2 (fun he => h (by rw [he]))

theorem listModify_length {α : Type} (l : List α) (i : Nat) (f : α → α) :
    (listModify l i f).length = l.length := by
  induction l generalizing i with
  | nil => rfl
  | cons x rest ih => cases i with
    | zero => rfl
    | succ i =>
      show (x :: listModify rest i f).length = (x :: rest).length
      simp only [List.length_cons, ih i]

theorem listModify_same {α : Type} (l : List α) (i : Nat) (f : α → α)
    (h : ∀ d, f (l.getD i d) = l.getD i d) : listModify l i f = l := by
  induction l generalizing i with
  | nil => rfl
  | cons x rest ih =>
    cases i with
    | zero =>
      show f x :: rest = x :: rest
      have hx : f x = x := by simpa using h x
      rw [hx]
    | succ i =>
      show x :: listModify rest i f = x :: rest
      rw [ih i (fun d => by simpa using h d)]

theorem listSet_same {α : Type} (l : List α) (y : Nat) (v : α)
    (h : ∀ d, l.getD y d = v) : listSet l y v = l := by
  induction l generalizing y with
  | nil => rfl
  | cons x rest ih =>
    cases y with
    | zero =>
      show v :: rest = x :: rest
      have hx : x = v := by simpa using h x
      rw [hx]
    | succ y =>
      show x :: listSet rest y v = x :: rest
      rw [ih y (fun d => by simpa using h d)]

theorem map_listSet {α β : Type} (f : α → β) (l : List α) (y : Nat) (v : α) :
    (listSet l y v).map f = listSet (l.map f) y (f v) := by
  induction l generalizing y with
  | nil => cases y <;> rfl
  | cons x rest ih =>
    cases y with
    | zero => rfl
    | succ y => show _ :: _ = _ :: _; rw [ih y]

theorem map_listModify {α β : Type} (f : α → β) (l : List α) (i : Nat)
    (h h2 : α → α) (hc : ∀ x, f (h x) = f (h2 x)) :
    (listModify l i h).map f = (listModify l i h2).map f := by
  induction l generalizing i with
  | nil => rfl
  | cons x rest ih =>
    cases i with
    | zero => show f (h x) :: _ = f (h2 x) :: _; rw [hc x]
    | succ i => show _ :: _ = _ :: _; rw [ih i]

theorem map_listModify_comm {α β : Type} (f : α → β) (l : List α) (i : Nat)
    (h : α → α) (h2 : β → β) (hc : ∀ x, f (h x) = h2 (f x)) :
    (listModify l i h).map f = listModify (l.map f) i h2 := by
  induction l generalizing i with
  | nil => rfl
  | cons x rest ih =>
    cases i with
    | zero => show f (h x) :: _ = h2 (f x) :: _; rw [hc x]
    | succ i => show _ :: _ = _ :: _; rw [ih i]

theorem map_getD {α β : Type} (f : α → β) (l : List α) (i : Nat) (d : β)
    (d2 : α) (h : i < l.length) : (l.map f).getD i d = f (l.getD i d2) := by
  induction l generalizing i with
  | nil => cases h
  | cons x rest ih =>
    cases i with
    | zero => rfl
    | succ i => exact ih i (by simpa using h)

theorem map_self {α : Type} (f : α → α) (l : List α)
    (h : ∀ x ∈ l, f x = x) : l.map f = l := by
  induction l with
  | nil => rfl
  | cons x rest ih =>
    rw [List.map_cons, h x (List.mem_cons_self _ _),
      ih (fun y hy => h y (List.mem_cons_of_mem _ hy))]

end CircuitBoard

namespace CircuitBoard

/-- In-bounds predicate for a cell of a (ragged) grid value. -/
def inB (g : Grid) (z x y : Nat) : Prop :=
  z < g.length ∧ x < (g.getD z []).length ∧ y < ((g.getD z []).getD x []).length

theorem listGetD_oob {α : Type} (l : List α) (i : Nat) (d : α)
    (h : l.length ≤ i) : l.getD i d = d := by
  induction l generalizing i with
  | nil => cases i <;> rfl
  | cons x rest ih =>
    cases i with
    | zero => cases h
    | succ i => exact ih i (by simpa using h)

theorem listGetD_indep {α : Type} (l : List α) (i : Nat) (d d2 : α)
    (h : i < l.length) : l.getD i d = l.getD i d2 := by
  induction l generalizing i with
  | nil => cases h
  | cons x rest ih =>
    cases i with
    | zero => rfl
    | succ i => exact ih i (by simpa using h)

theorem listModify_oob {α : Type} (l : List α) (i : Nat) (f : α → α)
    (h : l.length ≤ i) : listModify l i f = l := by
  induction l generalizing i with
  | nil => rfl
  | cons x rest ih =>
    cases i with
    | zero => cases h
    | succ i =>
      show x :: listModify rest i f = x :: rest
      rw [ih i (by simpa using h)]

theorem getCell_inB (g : Grid) (z x y : Nat) (h : getCell g z x y ≠ "") :
    inB g z x y := by
  refine ⟨?_, ?_, ?_⟩
  · by_contra hc
    exact h (by unfold getCell; rw [listGetD_oob g z [] (le_of_not_lt hc)]; rfl)
  · by_contra hc
    exact h (by unfold getCell; rw [listGetD_oob _ x [] (le_of_not_lt hc)]; rfl)
  · by_contra hc
    exact h (by unfold getCell; rw [listGetD_oob _ y "" (le_of_not_lt hc)])

theorem getCell_setCell_self (g : Grid) (z x y : Nat) (v : String)
    (hb : inB g z x y) : getCell (setCell g z x y v) z x y = v := by
  obtain ⟨hz, hx, hy⟩ := hb
  unfold getCell setCell
  rw [listModify_getD_self g z _ [] hz, listModify_getD_self _ x _ [] hx,
    listSet_getD_self _ y v "" hy]

theorem getCell_setCell_ne (g : Grid) (z x y : Nat) (v : String)
    (z2 x2 y2 : Nat) (h : ¬(z2 = z ∧ x2 = x ∧ y2 = y)) :
    getCell (setCell g z x y v) z2 x2 y2 = getCell g z2 x2 y2 := by
  unfold getCell setCell
  by_cases hz : z2 = z
  · subst hz
    by_cases hzb : z2 < g.length
    · rw [listModify_getD_self g z2 _ [] hzb]
      by_cases hx : x2 = x
      · subst hx
        by_cases hxb : x2 < (g.getD z2 []).length
        · rw [listModify_getD_self _ x2 _ [] hxb]
          have hy : y2 ≠ y := by tauto
          rw [listSet_getD_ne _ y y2 v "" hy]
        · rw [listModify_oob _ _ _ (le_of_not_lt hxb)]
      · rw [listModify_getD_ne _ x x2 _ [] hx]
    · rw [listModify_oob _ _ _ (le_of_not_lt hzb)]
  · rw [listModify_getD_ne _ z z2 _ [] hz]

theorem setCell_same (g : Grid) (z x y : Nat) (v : String)
    (hcell : getCell g z x y = v) (hv : v ≠ "") : setCell g z x y v = g := by
  have hb : inB g z x y := getCell_inB g z x y (by rw [hcell]; exact hv)
  obtain ⟨hz, hx, hy⟩ := hb
  unfold setCell
  apply listModify_same
  intro d
  rw [listGetD_indep g z d [] hz]
  apply congrArg (fun p => p)
  show listModify (g.getD z []) x _ = g.getD z []
  apply listModify_same
  intro d2
  rw [listGetD_indep _ x d2 [] hx]
  apply listSet_same
  intro d3
  rw [listGetD_indep _ y d3 "" hy]
  exact hcell

/-- `np.where` is the identity on a grid carrying no `name` cell. -/
theorem npWhere_id (g : Grid) (name : String)
    (hfresh : ∀ plane ∈ g, ∀ row ∈ plane, ∀ cell ∈ row, cell ≠ name) :
    npWhereEq g name = g := by
  unfold npWhereEq
  apply map_self
  intro plane hplane
  apply map_self
  intro row hrow
  apply map_self
  intro cell hcell
  rw [if_neg (hfresh plane hplane row hrow cell hcell)]

/-- `np.where` commutes with a single-cell write. -/
theorem npWhere_setCell (g : Grid) (z x y : Nat) (v : String) (name : String) :
    npWhereEq (setCell g z x y v) name =
      setCell (npWhereEq g name) z x y (if v = name then "__" else v) := by
  unfold npWhereEq setCell
  apply map_listModify_comm
  intro plane
  apply map_listModify_comm
  intro row
  apply map_listSet

theorem getCell_npWhere (g : Grid) (z x y : Nat) (name : String)
    (hb : inB g z x y) :
    getCell (npWhereEq g name) z x y =
      (if getCell g z x y = name then "__" else getCell g z x y) := by
  obtain ⟨hz, hx, hy⟩ := hb
  unfold getCell npWhereEq
  rw [map_getD _ g z [] [] hz, map_getD _ _ x [] [] hx, map_getD _ _ y "" "" hy]

end CircuitBoard

namespace CircuitBoard

/-! ### paint and undo (delete_connection) -/

/-- The paint loop of `complete_board`: `for node in path: set_node(node, name)`. -/
def paintPath (g : Grid) (name : String) (path : List Coord) : Grid :=
  path.foldl (fun g2 node => set_node g2 node name) g

/-- Python `"%02d" % n`. -/
def pct02d (n : Nat) : String := if n < 10 then "0" ++ toString n else toString n

/-- `wire_names = ["%02d" % x for x in range(1, len(connections) + 1)]`. -/
def wire_names (n : Nat) : List String := (List.range n).map (fun x => pct02d (x + 1))

/-- `delete_connection(i, name)`: increment both endpoint counters of
connection `i` and relabel every `name` cell back to Empty. -/
def delete_connection (b : Board) (i : Nat) (name : String) : Board :=
  { b with
    needs_connections :=
      dictAdd (dictAdd b.needs_connections
        (PyKey.gateK (b.connections.getD i (0, 0)).1) 1)
        (PyKey.gateK (b.connections.getD i (0, 0)).2) 1,
    board := npWhereEq b.board name }

/-- The paint-plus-decrement step of `complete_board` (lines 146-153): both
endpoint counters of connection `i` go down by one and the path cells are
painted with the net's wire label. -/
def paintRoute (b : Board) (i : Nat) (path : List Coord) : Board :=
  { b with
    needs_connections :=
      dictAdd (dictAdd b.needs_connections
        (PyKey.gateK (b.connections.getD i (0, 0)).1) (-1))
        (PyKey.gateK (b.connections.getD i (0, 0)).2) (-1),
    board := paintPath b.board ((wire_names b.connections.length).getD i "") path }

theorem paint_undo (name : String) (hname : name ≠ "") :
    ∀ (path : List Coord) (g : Grid),
      (∀ c ∈ path, getCell g c.1 c.2.1 c.2.2 = "__" ∨
        getCell g c.1 c.2.1 c.2.2 = name) →
      npWhereEq (paintPath g name path) name = npWhereEq g name := by
  intro path
  induction path with
  | nil => intro g _; rfl
  | cons c cs ih =>
    intro g h
    have hc := h c (List.mem_cons_self _ _)
    have hcb : inB g c.1 c.2.1 c.2.2 := by
      apply getCell_inB
      rcases hc with h1 | h1
      · rw [h1]; decide
      · rw [h1]; exact hname
    have hcs : ∀ c2 ∈ cs, getCell (set_node g c name) c2.1 c2.2.1 c2.2.2 = "__" ∨
        getCell (set_node g c name) c2.1 c2.2.1 c2.2.2 = name := by
      intro c2 hc2
      by_cases he : c2.1 = c.1 ∧ c2.2.1 = c.2.1 ∧ c2.2.2 = c.2.2
      · right
        unfold set_node
        rw [he.1, he.2.1, he.2.2]
        exact getCell_setCell_self _ _ _ _ _ hcb
      · have horig := h c2 (List.mem_cons_of_mem _ hc2)
        unfold set_node
        rw [getCell_setCell_ne _ _ _ _ _ _ _ _ he]
        exact horig
    show npWhereEq (paintPath (set_node g c name) name cs) name = _
    rw [ih (set_node g c name) hcs]
    unfold set_node
    rw [npWhere_setCell, if_pos rfl]
    apply setCell_same
    · rw [getCell_npWhere g _ _ _ name hcb]
      rcases hc with h1 | h1
      · rw [h1, ite_self]
      · rw [h1, if_pos rfl]
    · decide

/-- C3: painting a net's path (every cell previously Empty) with a wire label
present nowhere else on the grid, decrementing both endpoint counters, and
then immediately undoing with `delete_connection`, restores the board object
bit for bit: grid, counters, and all other fields. -/
theorem C3_paint_undo_inverse (b : Board) (i : Nat) (path : List Coord)
    (va vb : Int)
    (hva : dictGet b.needs_connections
      (PyKey.gateK (b.connections.getD i (0, 0)).1) = some va)
    (hvb : dictGet b.needs_connections
      (PyKey.gateK (b.connections.getD i (0, 0)).2) = some vb)
    (hcells : ∀ c ∈ path, getCell b.board c.1 c.2.1 c.2.2 = "__")
    (hfresh : ∀ plane ∈ b.board, ∀ row ∈ plane, ∀ cell ∈ row,
      cell ≠ (wire_names b.connections.length).getD i "")
    (hname : (wire_names b.connections.length).getD i "" ≠ "") :
    delete_connection (paintRoute b i path) i
      ((wire_names b.connections.length).getD i "") = b := by
  obtain ⟨dims, gates, conns, board, needs, nbof, free⟩ := b
  simp only at hva hvb hcells hfresh hname
  have hboard : npWhereEq
      (paintPath board ((wire_names conns.length).getD i "") path)
      ((wire_names conns.length).getD i "") = board := by
    rw [paint_undo _ hname path board (fun c hc => Or.inl (hcells c hc))]
    exact npWhere_id _ _ hfresh
  have hneeds := dictAdd_cancel needs
    (PyKey.gateK (conns.getD i (0, 0)).1) (PyKey.gateK (conns.getD i (0, 0)).2)
    va vb hva hvb
  show Board.mk dims gates conns
      (npWhereEq (paintPath board ((wire_names conns.length).getD i "") path)
        ((wire_names conns.length).getD i ""))
      (dictAdd (dictAdd (dictAdd (dictAdd needs
        (PyKey.gateK (conns.getD i (0, 0)).1) (-1))
        (PyKey.gateK (conns.getD i (0, 0)).2) (-1))
        (PyKey.gateK (conns.getD i (0, 0)).1) 1)
        (PyKey.gateK (conns.getD i (0, 0)).2) 1)
      nbof free = Board.mk dims gates conns board needs nbof free
  rw [hboard, hneeds]

theorem C3_paint_undo_inverse_witness :
    (dictGet cexC1.needs_connections
      (PyKey.gateK (cexC1.connections.getD 0 (0, 0)).1) = some 1) ∧
    delete_connection (paintRoute cexC1 0 [(0, 1, 0), (0, 1, 1)]) 0
      ((wire_names cexC1.connections.length).getD 0 "") = cexC1 :=
  ⟨by decide,
    C3_paint_undo_inverse cexC1 0 [(0, 1, 0), (0, 1, 1)] 1 1
      (by decide) (by decide) (by decide) (by decide) (by decide)⟩

end CircuitBoard

namespace CircuitBoard

/-! ### The tentative-g-score skip test (C8) -/

/-- A search-expansion state in which the current node's recorded g-score is
999: its unrecorded neighbour gets tentative g-score 1000 and is skipped. -/
def cexC8st : AState :=
  { cl := [], op := [(0, 0, 0)], cf := [],
    g := [((0, 0, 0), 999)], f := [((0, 0, 0), 1004)] }

/-- C8: FALSIFIED.  In the expansion state `cexC8st` the neighbour (0,0,1)
of current node (0,0,0) is vacant, not closed, and has no previously
recorded g-score, yet the expansion step skips it: its tentative g-score is
999 + 1 = 1000 and the code compares against `g_score.get(neighbor, 1000)`,
so no back-pointer, g-score or f-score is recorded for it (it is only added
to the open set).  The claim says such a neighbour is never skipped. -/
theorem C8_unrecorded_neighbor_skipped :
    cexC8st.cl.contains ((0, 0, 1) : Coord) = false ∧
    dictGet cexC8st.g (0, 0, 1) = none ∧
    expandStep (0, 0, 5) (0, 0, 0) cexC8st (0, 0, 1) =
      .ok { cexC8st with op := [(0, 0, 0), (0, 0, 1)] } ∧
    dictGet ({ cexC8st with op := [(0, 0, 0), (0, 0, 1)] } : AState).g (0, 0, 1)
      = none :=
  ⟨rfl, rfl, rfl, rfl⟩

theorem expandStep_eq (goal current : Coord) (st : AState) (nb : Coord)
    (gc : Nat) (hcl : st.cl.contains nb = false)
    (hgc : dictGet st.g current = some gc) :
    expandStep goal current st nb =
      (if gc + manhattan current nb ≥ (dictGet st.g nb).getD 1000 then
        .ok { st with op := if st.op.contains nb then st.op else st.op ++ [nb] }
       else
        .ok { st with
          op := if st.op.contains nb then st.op else st.op ++ [nb],
          cf := dictSet st.cf nb current,
          g := dictSet st.g nb (gc + manhattan current nb),
          f := dictSet st.f nb
            (gc + manhattan current nb + manhattan nb goal) }) := by
  unfold expandStep
  rw [hcl]
  simp only [Bool.false_eq_true, if_neg, not_false_iff]
  rw [hgc]

/-- C8 amended: a neighbour not in the closed set is skipped (no record
written) iff its tentative g-score is at least `g_score.get(neighbor, 1000)`
— the previously recorded value when there is one, and the default 1000 when
there is none; an unrecorded neighbour is recorded only when its tentative
g-score is below 1000.  Either way the neighbour is added to the open set. -/
theorem C8_skip_iff_not_strictly_better (goal current : Coord) (st : AState)
    (nb : Coord) (gc : Nat) (hcl : st.cl.contains nb = false)
    (hgc : dictGet st.g current = some gc) :
    ∃ st2, expandStep goal current st nb = .ok st2 ∧
      st2.op = (if st.op.contains nb then st.op else st.op ++ [nb]) ∧
      ((dictGet st2.g nb = dictGet st.g nb ∧ st2.cf = st.cf) ↔
        gc + manhattan current nb ≥ (dictGet st.g nb).getD 1000) ∧
      (gc + manhattan current nb < (dictGet st.g nb).getD 1000 →
        dictGet st2.g nb = some (gc + manhattan current nb) ∧
        dictGet st2.cf nb = some current ∧
        dictGet st2.f nb = some (gc + manhattan current nb + manhattan nb goal)) := by
  by_cases hskip : gc + manhattan current nb ≥ (dictGet st.g nb).getD 1000
  · refine ⟨{ st with op := if st.op.contains nb then st.op else st.op ++ [nb] },
      ?_, rfl, ?_, ?_⟩
    · rw [expandStep_eq goal current st nb gc hcl hgc, if_pos hskip]
    · exact iff_of_true ⟨rfl, rfl⟩ hskip
    · intro hlt
      omega
  · refine ⟨{ st with
        op := if st.op.contains nb then st.op else st.op ++ [nb],
        cf := dictSet st.cf nb current,
        g := dictSet st.g nb (gc + manhattan current nb),
        f := dictSet st.f nb (gc + manhattan current nb + manhattan nb goal) },
      ?_, rfl, ?_, ?_⟩
    · rw [expandStep_eq goal current st nb gc hcl hgc, if_neg hskip]
    · constructor
      · intro hcon
        have hsame := hcon.1
        show gc + manhattan current nb ≥ (dictGet st.g nb).getD 1000
        have hself : dictGet (dictSet st.g nb (gc + manhattan current nb)) nb =
            some (gc + manhattan current nb) := dictGet_dictSet_self _ _ _
        rw [hself] at hsame
        rcases hg : dictGet st.g nb with _ | v
        · rw [hg] at hsame; cases hsame
        · rw [hg] at hsame
          cases hsame
          rw [hg] at hskip
          simp only [Option.getD_some] at hskip
          omega
      · intro hge
        exact absurd hge hskip
    · intro _
      exact ⟨dictGet_dictSet_self _ _ _, dictGet_dictSet_self _ _ _,
        dictGet_dictSet_self _ _ _⟩

theorem C8_skip_iff_not_strictly_better_witness :
    (cexC8st.cl.contains ((0, 1, 0) : Coord) = false ∧
      dictGet cexC8st.g (0, 0, 0) = some 999) ∧
    ∃ st2, expandStep (0, 0, 5) (0, 0, 0) cexC8st (0, 1, 0) = .ok st2 ∧
      st2.op = (if cexC8st.op.contains (0, 1, 0) then cexC8st.op
        else cexC8st.op ++ [(0, 1, 0)]) ∧
      ((dictGet st2.g (0, 1, 0) = dictGet cexC8st.g (0, 1, 0) ∧
          st2.cf = cexC8st.cf) ↔
        999 + manhattan (0, 0, 0) (0, 1, 0) ≥
          (dictGet cexC8st.g (0, 1, 0)).getD 1000) ∧
      (999 + manhattan (0, 0, 0) (0, 1, 0) <
          (dictGet cexC8st.g (0, 1, 0)).getD 1000 →
        dictGet st2.g (0, 1, 0) = some (999 + manhattan (0, 0, 0) (0, 1, 0)) ∧
        dictGet st2.cf (0, 1, 0) = some (0, 0, 0) ∧
        dictGet st2.f (0, 1, 0) = some (999 + manhattan (0, 0, 0) (0, 1, 0) +
          manhattan (0, 1, 0) (0, 0, 5))) :=
  ⟨⟨rfl, rfl⟩,
    C8_skip_iff_not_strictly_better (0, 0, 5) (0, 0, 0) cexC8st (0, 1, 0) 999
      rfl rfl⟩

end CircuitBoard

namespace CircuitBoard

/-! ### Geometry of the neighbour step -/

/-- One grid step of the search graph: `v` is enumerated as a vacant
neighbour of `u` on board `b`. -/
def stepOK (b : Board) (u v : Coord) : Prop := v ∈ node_neighbors b u

/-- The spec's contiguity relation: exactly one axis differs, by exactly
one unit. -/
def oneAxisUnit (a c : Coord) : Prop :=
  (Nat.dist a.1 c.1 = 1 ∧ a.2.1 = c.2.1 ∧ a.2.2 = c.2.2) ∨
  (a.1 = c.1 ∧ Nat.dist a.2.1 c.2.1 = 1 ∧ a.2.2 = c.2.2) ∨
  (a.1 = c.1 ∧ a.2.1 = c.2.1 ∧ Nat.dist a.2.2 c.2.2 = 1)

theorem oneAxisUnit_symm {a c : Coord} (h : oneAxisUnit a c) : oneAxisUnit c a := by
  unfold oneAxisUnit at *
  rcases h with ⟨h1, h2, h3⟩ | ⟨h1, h2, h3⟩ | ⟨h1, h2, h3⟩
  · exact Or.inl ⟨by rw [Nat.dist_comm]; exact h1, h2.symm, h3.symm⟩
  · exact Or.inr (Or.inl ⟨h1.symm, by rw [Nat.dist_comm]; exact h2, h3.symm⟩)
  · exact Or.inr (Or.inr ⟨h1.symm, h2.symm, by rw [Nat.dist_comm]; exact h3⟩)

theorem removeFirst_subset {α : Type} [DecidableEq α] (l : List α) (a x : α)
    (h : x ∈ removeFirst l a) : x ∈ l := by
  induction l with
  | nil => cases h
  | cons y rest ih =>
    by_cases he : y = a
    · rw [removeFirst, if_pos he] at h
      exact List.mem_cons_of_mem _ h
    · rw [removeFirst, if_neg he] at h
      rcases List.mem_cons.mp h with h1 | h1
      · exact h1 ▸ List.mem_cons_self _ _
      · exact List.mem_cons_of_mem _ (ih h1)

theorem pyForRemove_subset {α : Type} [DecidableEq α] (p : α → Bool)
    (fuel : Nat) : ∀ (l : List α) (i : Nat) (x : α),
    x ∈ pyForRemove p fuel l i → x ∈ l := by
  induction fuel with
  | zero => intro l i x h; exact h
  | succ fuel ih =>
    intro l i x h
    rw [pyForRemove] at h
    split at h
    · next hi =>
      have := ih _ _ _ h
      by_cases hp : p (l.get ⟨i, hi⟩)
      · rw [if_pos hp] at this
        exact removeFirst_subset _ _ _ this
      · rw [if_neg hp] at this
        exact this
    · exact h

theorem mem_ite_singleton {α : Type} (c : Bool) (v x : α)
    (h : x ∈ (if c then [v] else [])) : c = true ∧ x = v := by
  cases c with
  | false => cases h
  | true => exact ⟨rfl, by simpa using h⟩

theorem rawNeighbors_oneAxis (b : Board) (u v : Coord)
    (h : v ∈ rawNeighbors b u) : oneAxisUnit u v := by
  obtain ⟨nz, nx, ny⟩ := u
  unfold rawNeighbors at h
  simp only [List.mem_append] at h
  rcases h with ((((h | h) | h) | h) | h) | h <;>
    obtain ⟨hc, hv⟩ := mem_ite_singleton _ _ _ h <;>
    subst hv <;>
    simp only [Bool.and_eq_true, decide_eq_true_eq] at hc
  · exact Or.inl ⟨by simp [Nat.dist], rfl, rfl⟩
  · refine Or.inl ⟨?_, rfl, rfl⟩
    have : 0 < nz := hc.1.1
    simp [Nat.dist]
    omega
  · exact Or.inr (Or.inl ⟨rfl, by simp [Nat.dist], rfl⟩)
  · refine Or.inr (Or.inl ⟨rfl, ?_, rfl⟩)
    have : 0 < nx := hc.1.1
    simp [Nat.dist]
    omega
  · exact Or.inr (Or.inr ⟨rfl, rfl, by simp [Nat.dist]⟩)
  · refine Or.inr (Or.inr ⟨rfl, rfl, ?_⟩)
    have : 0 < ny := hc.1.1
    simp [Nat.dist]
    omega

theorem node_neighbors_subset_raw (b : Board) (u v : Coord)
    (h : v ∈ node_neighbors b u) : v ∈ rawNeighbors b u :=
  pyForRemove_subset _ _ _ _ _ h

theorem stepOK_oneAxis (b : Board) (u v : Coord) (h : stepOK b u v) :
    oneAxisUnit u v :=
  rawNeighbors_oneAxis b u v (node_neighbors_subset_raw b u v h)

theorem oneAxisUnit_manhattan {a c : Coord} (h : oneAxisUnit a c) :
    manhattan a c = 1 := by
  unfold manhattan
  rcases h with ⟨h1, h2, h3⟩ | ⟨h1, h2, h3⟩ | ⟨h1, h2, h3⟩
  · rw [h1, h2, h3, Nat.dist_self, Nat.dist_self]
  · rw [h1, h2, h3, Nat.dist_self, Nat.dist_self]
  · rw [h1, h2, h3, Nat.dist_self, Nat.dist_self]

theorem stepOK_manhattan (b : Board) (u v : Coord) (h : stepOK b u v) :
    manhattan u v = 1 :=
  oneAxisUnit_manhattan (stepOK_oneAxis b u v h)

end CircuitBoard

namespace CircuitBoard

/-! ### Search soundness invariants -/

theorem contains_false_not_mem {α : Type} [BEq α] [LawfulBEq α] (l : List α)
    (a : α) (h : l.contains a = false) : a ∉ l := by
  intro hc
  have h2 : l.contains a = true := List.elem_eq_true_of_mem hc
  rw [h] at h2
  cases h2

theorem mem_contains_true {α : Type} [BEq α] [LawfulBEq α] (l : List α) (a : α)
    (h : a ∈ l) : l.contains a = true :=
  List.elem_eq_true_of_mem h

theorem dictGet_isSome_of_mem {α β : Type} [DecidableEq α] (m : List (α × β))
    (kv : α × β) (h : kv ∈ m) : (dictGet m kv.1).isSome := by
  induction m with
  | nil => cases h
  | cons x rest ih =>
    obtain ⟨k0, v0⟩ := x
    rcases List.mem_cons.mp h with h1 | h1
    · rw [h1]
      unfold dictGet
      rw [if_pos rfl]
      rfl
    · unfold dictGet
      by_cases he : k0 = kv.1
      · rw [if_pos he]; rfl
      · rw [if_neg he]; exact ih h1

theorem dictGet_isSome_iff_mem_keys {α β : Type} [DecidableEq α]
    (m : List (α × β)) (k : α) :
    (dictGet m k).isSome ↔ k ∈ m.map Prod.fst := by
  induction m with
  | nil => simp [dictGet]
  | cons x rest ih =>
    obtain ⟨k0, v0⟩ := x
    unfold dictGet
    by_cases he : k0 = k
    · subst he
      simp
    · rw [if_neg he]
      simp only [List.map_cons, List.mem_cons, ih]
      constructor
      · intro h; right; exact h
      · intro h
        rcases h with h | h
        · exact absurd h.symm he
        · exact h

theorem dictSet_keys {α β : Type} [DecidableEq α] (m : List (α × β)) (k : α)
    (v : β) :
    (dictSet m k v).map Prod.fst =
      (if (dictGet m k).isSome then m.map Prod.fst else m.map Prod.fst ++ [k]) := by
  induction m with
  | nil => simp [dictSet, dictGet]
  | cons x rest ih =>
    obtain ⟨k0, v0⟩ := x
    unfold dictSet dictGet
    by_cases he : k0 = k
    · subst he
      simp
    · rw [if_neg he, if_neg he]
      simp only [List.map_cons, ih]
      by_cases hs : (dictGet rest k).isSome
      · rw [if_pos hs, if_pos hs]
      · rw [if_neg hs, if_neg hs]
        rfl

theorem minEntry_mem (l : List (Coord × Nat)) (kv : Coord × Nat)
    (h : minEntry l = some kv) : kv ∈ l := by
  have main : ∀ (l2 : List (Coord × Nat)) (acc : Option (Coord × Nat)),
      l2.foldl (fun acc kv2 =>
        match acc with
        | none => some kv2
        | some best => if kv2.2 < best.2 then some kv2 else acc) acc = some kv →
      kv ∈ l2 ∨ acc = some kv := by
    intro l2
    induction l2 with
    | nil => intro acc h2; exact Or.inr h2
    | cons x rest ih =>
      intro acc h2
      rcases ih _ h2 with h3 | h3
      · exact Or.inl (List.mem_cons_of_mem _ h3)
      · cases acc with
        | none =>
          cases h3
          exact Or.inl (List.mem_cons_self _ _)
        | some best =>
          have h4 : (if x.2 < best.2 then some x else some best) = some kv := h3
          by_cases hl : x.2 < best.2
          · rw [if_pos hl] at h4
            cases h4
            exact Or.inl (List.mem_cons_self _ _)
          · rw [if_neg hl] at h4
            exact Or.inr h4
  rcases main l none h with h2 | h2
  · exact h2
  · cases h2

/-- The soundness invariant of the A* state: the back-pointer graph is a
step-valid tree rooted at `start` whose g-scores rise by one along each
pointer, every scored node other than `start` has a pointer, parents are
closed, and f-score keys track g-score keys. -/
structure SInv (b : Board) (start : Coord) (st : AState) : Prop where
  startG : dictGet st.g start = some 0
  startCf : dictGet st.cf start = none
  cfStep : ∀ n p, dictGet st.cf n = some p → stepOK b p n
  cfCl : ∀ n p, dictGet st.cf n = some p → p ∈ st.cl
  cfG : ∀ n p, dictGet st.cf n = some p →
    ∃ dp, dictGet st.g p = some dp ∧ dictGet st.g n = some (dp + 1)
  gKeyCf : ∀ n, n ≠ start → (dictGet st.g n).isSome → (dictGet st.cf n).isSome
  keysEq : st.f.map Prod.fst = st.g.map Prod.fst

theorem manhattan_self (a : Coord) : manhattan a a = 0 := by
  unfold manhattan
  rw [Nat.dist_self, Nat.dist_self, Nat.dist_self]

theorem SInv_gf_iff (b : Board) (start : Coord) (st : AState)
    (inv : SInv b start st) (n : Coord) :
    (dictGet st.f n).isSome ↔ (dictGet st.g n).isSome := by
  rw [dictGet_isSome_iff_mem_keys, dictGet_isSome_iff_mem_keys, inv.keysEq]

theorem expandStep_SInv (b : Board) (start goal current : Coord) (st : AState)
    (nb : Coord) (inv : SInv b start st) (hnb : stepOK b current nb)
    (hcur : current ∈ st.cl) (st2 : AState)
    (h : expandStep goal current st nb = .ok st2) :
    SInv b start st2 ∧ st2.cl = st.cl ∧
      dictGet st2.g current = dictGet st.g current := by
  by_cases hmem : st.cl.contains nb
  · unfold expandStep at h
    rw [if_pos hmem] at h
    cases h
    exact ⟨inv, rfl, rfl⟩
  · have hmemF : st.cl.contains nb = false := by
      cases hv : st.cl.contains nb
      · rfl
      · exact absurd hv hmem
    have hnbcl : nb ∉ st.cl := contains_false_not_mem _ _ hmemF
    have hnbcur : nb ≠ current := fun he => hnbcl (he ▸ hcur)
    cases hgc : dictGet st.g current with
    | none =>
      unfold expandStep at h
      rw [if_neg hmem, hgc] at h
      cases h
    | some gc =>
      rw [expandStep_eq goal current st nb gc hmemF hgc] at h
      by_cases hskip : gc + manhattan current nb ≥ (dictGet st.g nb).getD 1000
      · rw [if_pos hskip] at h
        cases h
        refine ⟨⟨inv.startG, inv.startCf, inv.cfStep, inv.cfCl, inv.cfG,
          inv.gKeyCf, inv.keysEq⟩, rfl, hgc⟩
      · rw [if_neg hskip] at h
        cases h
        have htent : gc + manhattan current nb < (dictGet st.g nb).getD 1000 := by
          omega
        have hone : manhattan current nb = 1 := stepOK_manhattan b current nb hnb
        have hnbstart : nb ≠ start := by
          intro he
          rw [he, inv.startG] at htent
          simp only [Option.getD_some] at htent
          omega
        refine ⟨⟨?_, ?_, ?_, ?_, ?_, ?_, ?_⟩, rfl, ?_⟩
        · show dictGet (dictSet st.g nb _) start = some 0
          rw [dictGet_dictSet_ne _ _ _ _ (fun he => hnbstart he)]
          exact inv.startG
        · show dictGet (dictSet st.cf nb current) start = none
          rw [dictGet_dictSet_ne _ _ _ _ (fun he => hnbstart he)]
          exact inv.startCf
        · intro n p hp
          show stepOK b p n
          by_cases hn : nb = n
          · subst hn
            rw [dictGet_dictSet_self] at hp
            cases hp
            exact hnb
          · rw [dictGet_dictSet_ne _ _ _ _ hn] at hp
            exact inv.cfStep n p hp
        · intro n p hp
          by_cases hn : nb = n
          · subst hn
            rw [dictGet_dictSet_self] at hp
            cases hp
            exact hcur
          · rw [dictGet_dictSet_ne _ _ _ _ hn] at hp
            exact inv.cfCl n p hp
        · intro n p hp
          by_cases hn : nb = n
          · subst hn
            rw [dictGet_dictSet_self] at hp
            cases hp
            refine ⟨gc, ?_, ?_⟩
            · rw [dictGet_dictSet_ne _ _ _ _ hnbcur]
              exact hgc
            · rw [dictGet_dictSet_self, hone]
          · rw [dictGet_dictSet_ne _ _ _ _ hn] at hp
            obtain ⟨dp, hdp, hdn⟩ := inv.cfG n p hp
            have hpnb : nb ≠ p := fun he => hnbcl (he ▸ inv.cfCl n p hp)
            refine ⟨dp, ?_, ?_⟩
            · rw [dictGet_dictSet_ne _ _ _ _ hpnb]
              exact hdp
            · rw [dictGet_dictSet_ne _ _ _ _ hn]
              exact hdn
        · intro n hnst hsome
          by_cases hn : nb = n
          · subst hn
            show (dictGet (dictSet st.cf nb current) nb).isSome
            rw [dictGet_dictSet_self]
            rfl
          · rw [dictGet_dictSet_ne _ _ _ _ hn] at hsome
            show (dictGet (dictSet st.cf nb current) n).isSome
            rw [dictGet_dictSet_ne _ _ _ _ hn]
            exact inv.gKeyCf n hnst hsome
        · show (dictSet st.f nb _).map Prod.fst = (dictSet st.g nb _).map Prod.fst
          rw [dictSet_keys, dictSet_keys, inv.keysEq]
          by_cases hs : (dictGet st.g nb).isSome
          · rw [if_pos hs, if_pos ((SInv_gf_iff b start st inv nb).mpr hs)]
          · rw [if_neg hs, if_neg (fun hc =>
              hs ((SInv_gf_iff b start st inv nb).mp hc))]
        · show dictGet (dictSet st.g nb _) current = some gc
          rw [dictGet_dictSet_ne _ _ _ _ hnbcur]
          exact hgc

theorem expandLoop_SInv (b : Board) (start goal current : Coord) :
    ∀ (nbs : List Coord) (st : AState), SInv b start st →
      (∀ nb ∈ nbs, stepOK b current nb) → current ∈ st.cl →
      ∀ st2, expandLoop goal current st nbs = .ok st2 →
        SInv b start st2 ∧ st2.cl = st.cl := by
  intro nbs
  induction nbs with
  | nil =>
    intro st inv _ _ st2 h
    cases h
    exact ⟨inv, rfl⟩
  | cons nb rest ih =>
    intro st inv hnbs hcur st2 h
    rw [expandLoop] at h
    cases hstep : expandStep goal current st nb with
    | error e => rw [hstep] at h; cases h
    | ok st1 =>
      rw [hstep] at h
      obtain ⟨inv1, hcl1, _⟩ := expandStep_SInv b start goal current st nb inv
        (hnbs nb (List.mem_cons_self _ _)) hcur st1 hstep
      obtain ⟨inv2, hcl2⟩ := ih st1 inv1
        (fun nb2 hnb2 => hnbs nb2 (List.mem_cons_of_mem _ hnb2))
        (hcl1 ▸ hcur) st2 h
      exact ⟨inv2, by rw [hcl2, hcl1]⟩

end CircuitBoard

namespace CircuitBoard

theorem recon_sound (b : Board) (start : Coord) (st : AState)
    (inv : SInv b start st) :
    ∀ (fuel : Nat) (n : Coord), (dictGet st.g n).isSome →
      ∀ p, reconstruct_path st.cf fuel n = some p →
        p.head? = some n ∧ p.getLast? = some start ∧
          List.Chain' (fun a c => stepOK b c a) p := by
  intro fuel
  induction fuel with
  | zero => intro n _ p h; cases h
  | succ fuel ih =>
    intro n hg p h
    rw [reconstruct_path] at h
    split at h
    · next hcf =>
      cases h
      have hns : n = start := by
        by_contra hne
        have := inv.gKeyCf n hne hg
        rw [hcf] at this
        cases this
      subst hns
      exact ⟨rfl, rfl, List.chain'_singleton _⟩
    · next parent hcf =>
      split at h
      · next rest hr =>
        cases h
        obtain ⟨dp, hdp, _⟩ := inv.cfG n parent hcf
        have hgp : (dictGet st.g parent).isSome := by rw [hdp]; rfl
        obtain ⟨hh, hl, hc⟩ := ih parent hgp rest hr
        cases rest with
        | nil => cases hh
        | cons r0 rest2 =>
          have hr0 : r0 = parent := by
            have : some r0 = some parent := hh
            cases this
            rfl
          refine ⟨rfl, ?_, ?_⟩
          · rw [List.getLast?_cons_cons]
            exact hl
          · rw [List.chain'_cons]
            exact ⟨hr0 ▸ inv.cfStep n parent hcf, hc⟩
      · cases h

theorem searchLoop_sound (b : Board) (start goal : Coord) :
    ∀ (fuel : Nat) (st : AState), SInv b start st →
      ∀ p, searchLoop b goal fuel st = .found p →
        p.head? = some goal ∧ p.getLast? = some start ∧
          List.Chain' (fun a c => stepOK b c a) p := by
  intro fuel
  induction fuel with
  | zero =>
    intro st inv p h
    rw [searchLoop] at h
    by_cases he : st.op.isEmpty <;> simp [he] at h
  | succ fuel ih =>
    intro st inv p h
    rw [searchLoop] at h
    by_cases he : st.op.isEmpty
    · simp [he] at h
    · simp only [he, Bool.false_eq_true, if_neg, not_false_iff] at h
      cases hm : minEntry (st.f.filter fun kv => st.op.contains kv.1) with
      | none => rw [hm] at h; cases h
      | some cv =>
        obtain ⟨current, fv⟩ := cv
        rw [hm] at h
        replace h :
            (if current = goal then
              match reconstruct_path st.cf (st.cf.length + 1) current with
              | some q => SearchRes.found q
              | none => SearchRes.outOfFuel
            else
              match expandLoop goal current
                  { st with op := st.op.erase current, cl := st.cl ++ [current] }
                  (node_neighbors b current) with
              | .error _ => SearchRes.pyerr
              | .ok st2 => searchLoop b goal fuel st2) = SearchRes.found p := h
        have hmem := minEntry_mem _ _ hm
        have hmemf : (current, fv) ∈ st.f := (List.mem_filter.mp hmem).1
        have hfs : (dictGet st.f current).isSome :=
          dictGet_isSome_of_mem _ (current, fv) hmemf
        have hgs : (dictGet st.g current).isSome :=
          (SInv_gf_iff b start st inv current).mp hfs
        by_cases hgoal : current = goal
        · rw [if_pos hgoal] at h
          split at h
          · next q hq =>
            cases h
            have := recon_sound b start st inv (st.cf.length + 1) current hgs p hq
            rw [hgoal] at this
            exact this
          · cases h
        · rw [if_neg hgoal] at h
          cases hx : expandLoop goal current
              { st with op := st.op.erase current, cl := st.cl ++ [current] }
              (node_neighbors b current) with
          | error e => rw [hx] at h; cases h
          | ok st2 =>
            rw [hx] at h
            have inv1 : SInv b start
                { st with op := st.op.erase current, cl := st.cl ++ [current] } :=
              ⟨inv.startG, inv.startCf, inv.cfStep,
                fun n p2 hp => List.mem_append_left _ (inv.cfCl n p2 hp),
                inv.cfG, inv.gKeyCf, inv.keysEq⟩
            have hcur : current ∈ st.cl ++ [current] :=
              List.mem_append_right _ (List.mem_singleton.mpr rfl)
            obtain ⟨inv2, _⟩ := expandLoop_SInv b start goal current
              (node_neighbors b current) _ inv1 (fun nb hnb => hnb) hcur st2 hx
            exact ih st2 inv2 p h

theorem SInv_init (b : Board) (start goal : Coord) :
    SInv b start
      { cl := [], op := [start], cf := [],
        g := [(start, 0)], f := [(start, manhattan start goal)] } := by
  refine ⟨?_, rfl, ?_, ?_, ?_, ?_, rfl⟩
  · show dictGet [(start, 0)] start = some 0
    unfold dictGet
    rw [if_pos rfl]
  · intro n p hp; cases hp
  · intro n p hp; cases hp
  · intro n p hp; cases hp
  · intro n hn hsome
    exfalso
    show False
    have : dictGet [(start, (0 : Nat))] n = none := by
      unfold dictGet
      rw [if_neg (fun he => hn he.symm)]
      rfl
    rw [this] at hsome
    cases hsome

/-- C6: the search loop returns the distinguished no-path result whenever the
open set has emptied, and every path `search` does return runs from the goal
(the head of the returned list, which is ordered goal back to start) to the
start (its last element) — never a partial path. -/
theorem C6_unreachable_no_partial (b : Board) (start goal : Coord) (fuel : Nat) :
    (∀ st : AState, st.op = [] → searchLoop b goal fuel st = .noPath) ∧
    (∀ p, search start goal b fuel = .found p →
      p.head? = some goal ∧ p.getLast? = some start) := by
  constructor
  · intro st hop
    have hemp : st.op.isEmpty = true := by rw [hop]; rfl
    cases fuel with
    | zero => rw [searchLoop, if_pos hemp]
    | succ fuel => rw [searchLoop, if_pos hemp]
  · intro p h
    obtain ⟨h1, h2, _⟩ :=
      searchLoop_sound b start goal fuel _ (SInv_init b start goal) p h
    exact ⟨h1, h2⟩

/-- A gate-free 1x1x3 corridor board. -/
def corr : Board := mkBoard [] [] (1, 1, 3)

theorem C6_unreachable_no_partial_witness :
    (searchLoop corr (0, 0, 2) (boardFuel corr)
      { cl := [], op := [], cf := [], g := [], f := [] } = .noPath) ∧
    (([(0, 0, 2), (0, 0, 1), (0, 0, 0)] : List Coord).head? = some (0, 0, 2) ∧
      ([(0, 0, 2), (0, 0, 1), (0, 0, 0)] : List Coord).getLast? = some (0, 0, 0)) :=
  ⟨( C6_unreachable_no_partial corr (0, 0, 0) (0, 0, 2) (boardFuel corr)).1 _ rfl,
    ( C6_unreachable_no_partial corr (0, 0, 0) (0, 0, 2) (boardFuel corr)).2 _ rfl⟩

/-- C7: every path `search` returns is Manhattan-contiguous: each pair of
consecutive coordinates differs along exactly one axis, by exactly one. -/
theorem C7_paths_contiguous (b : Board) (start goal : Coord) (fuel : Nat)
    (p : List Coord) (h : search start goal b fuel = .found p) :
    List.Chain' oneAxisUnit p := by
  obtain ⟨_, _, hc⟩ :=
    searchLoop_sound b start goal fuel _ (SInv_init b start goal) p h
  exact List.Chain'.imp
    (fun a c hs => oneAxisUnit_symm (stepOK_oneAxis b c a hs)) hc

theorem C7_paths_contiguous_witness :
    List.Chain' oneAxisUnit [((0, 0, 2) : Coord), (0, 0, 1), (0, 0, 0)] :=
  C7_paths_contiguous corr (0, 0, 0) (0, 0, 2) (boardFuel corr) _ rfl

end CircuitBoard

namespace CircuitBoard

/-! ### The board-completion optimizer (complete_board)

`self.board` is a numpy array handled by reference: `best_solution =
self.board` aliases it, `set_node` mutates it in place, and the `np.where`
inside `delete_connection` rebinds `self.board` to a fresh array, leaving
`best_solution` pointing at the old one.  Only two roots ever reach these
arrays (`self.board` and `best_solution`), so the model carries the current
grid by value plus an `aliased` flag telling whether `best_solution` is the
same array as `self.board`; `bestG` holds `best_solution`'s value when it is
a grid of its own, and `ord0` the initial-ordering list it holds before any
snapshot.  `ghost` is pure instrumentation, written at each snapshot and
read by no step.  The two `random.sample` calls are an oracle `choices`
(indexed by the iteration counter, which counts perturbations); the loop
rejects oracle values that `random.sample` could not return.  The dead local
`visited = [ordering]` of the source is omitted. -/
structure OptState where
  cb : Board
  ordering : List Nat
  ord0 : List Nat
  completed : List Nat
  best_score : Nat
  bestG : Option Grid
  aliased : Bool
  ghost : Option Grid
  iterN : Nat
  completed_previously : Nat
deriving Repr

/-- One connection of the routing pass: skip if already completed, route via
`connect_gates`, and on success append it, decrement both endpoint counters
and paint the path (`paintRoute`); painting an empty path writes nothing. -/
def routeOne (st : OptState) (i : Nat) : Except Unit OptState :=
  if st.completed.contains i then .ok st
  else
    match connect_gates st.cb (st.cb.connections.getD i (0, 0)) with
    | .error e => .error e
    | .ok path =>
      if path.length > 0 then
        .ok { st with
          completed := st.completed ++ [i],
          cb := paintRoute st.cb i path }
      else .ok st

/-- The full routing pass over the current ordering. -/
def passRoute (st : OptState) : Except Unit OptState :=
  st.ordering.foldlM routeOne st

/-- The snapshot step: on a strictly better routed count, record it and
re-alias `best_solution` to the current board (`ghost` records its value). -/
def snapshotStep (st : OptState) : OptState :=
  if st.completed.length > st.best_score then
    { st with
      best_score := st.completed.length,
      aliased := true,
      bestG := none,
      ghost := some st.cb.board }
  else st

/-- One `delete_connection(j, wire_names[j]); completed_wires.remove(j)`
pair of the perturbation.  The `np.where` rebinds `self.board`, so an
aliased `best_solution` keeps the pre-delete array. -/
def deleteOne (st : OptState) (j : Nat) : OptState :=
  let st1 := if st.aliased then
    { st with bestG := some st.cb.board, aliased := false } else st
  { st1 with
    cb := delete_connection st1.cb j
      ((wire_names st1.cb.connections.length).getD j ""),
    completed := removeFirst st1.completed j }

def max_iters : Nat := 1000

def v_opt : Nat := 2

/-- Result of `complete_board`'s while loop: normal exit, the ValueError
from `random.sample(completed_wires, 2)` on a too-small population, a search
exception, an oracle value `random.sample` could not have produced, or fuel
exhaustion (a modelling artifact). -/
inductive OptRes where
  | done (st : OptState)
  | valueError
  | pyError
  | badOracle
  | outOfFuel
deriving Repr

/-- The `while required_connections - len(completed_wires) > 0` loop:
routing pass, snapshot, stagnation check (`break` at the iteration cap,
ValueError below population 2), perturbation, and the `completed_previously`
update closing each iteration. -/
def optLoop (choices : Nat → Nat × Nat × List Nat) :
    Nat → OptState → OptRes
  | 0, _ => .outOfFuel
  | fuel + 1, st =>
    if st.cb.connections.length - st.completed.length > 0 then
      match passRoute st with
      | .error _ => .pyError
      | .ok st1 =>
        let st2 := snapshotStep st1
        if st2.completed.length = st2.completed_previously then
          if st2.iterN = max_iters then .done st2
          else if st2.completed.length < v_opt then .valueError
          else
            let c := choices st2.iterN
            if c.1 ∈ st2.completed ∧ c.2.1 ∈ st2.completed ∧ c.1 ≠ c.2.1 ∧
                (∀ x ∈ c.2.2, x < st2.cb.connections.length) then
              let st3 := deleteOne (deleteOne st2 c.1) c.2.1
              let st4 := { st3 with ordering := c.2.2, iterN := st3.iterN + 1 }
              optLoop choices fuel
                { st4 with completed_previously := st4.completed.length }
            else .badOracle
        else
          optLoop choices fuel { st2 with
            completed_previously := st2.completed.length }
    else .done st

/-- What `self.board = best_solution` leaves behind: the best grid, or the
initial ordering list when no snapshot was ever taken. -/
inductive BoardOut where
  | grid (g : Grid)
  | pylist (l : List Nat)
deriving Repr

/-- The value `best_solution` refers to. -/
def currentBest (st : OptState) : Option Grid :=
  if st.aliased then some st.cb.board else st.bestG

def finalizeBoard (st : OptState) : BoardOut :=
  match currentBest st with
  | some g => .grid g
  | none => .pylist st.ord0

/-- Stable insertion into a sorted list: an element goes before the first
entry it compares less-or-equal to, so earlier elements keep their place
among equal keys. -/
def insertBy {α : Type} (le : α → α → Bool) (x : α) : List α → List α
  | [] => [x]
  | y :: rest => if le x y then x :: y :: rest else y :: insertBy le x rest

/-- Stable sort (structural insertion sort): the model of Python's stable
`sorted`; on a total key order it produces the unique stable sorted
permutation, the same list `sorted(..., key=itemgetter(1))` returns. -/
def sortBy {α : Type} (le : α → α → Bool) : List α → List α
  | [] => []
  | x :: rest => insertBy le x (sortBy le rest)

/-- The initial ordering: connection indices sorted ascending by the length
of an independent `connect_gates` estimate (Python's stable `sorted`). -/
def initOrdering (b : Board) : Except Unit (List Nat) := do
  let paths ← b.connections.mapM (fun c => connect_gates b c)
  let distances := paths.map List.length
  let dist_idx := (List.range b.connections.length).zip distances
  pure ((sortBy (fun a b2 => a.2 ≤ b2.2) dist_idx).map Prod.fst)

def initOpt (b : Board) (ord : List Nat) : OptState :=
  { cb := b, ordering := ord, ord0 := ord, completed := [],
    best_score := 0, bestG := none, aliased := false, ghost := none,
    iterN := 0, completed_previously := 0 }

/-- `complete_board` up to its final `self.board = best_solution`
assignment, which `finalizeBoard` performs on the `done` state. -/
def complete_board (b : Board) (choices : Nat → Nat × Nat × List Nat)
    (fuel : Nat) : OptRes :=
  match initOrdering b with
  | .error _ => .pyError
  | .ok ord => optLoop choices fuel (initOpt b ord)

end CircuitBoard

namespace CircuitBoard

theorem optLoop_succ_ok (choices : Nat → Nat × Nat × List Nat) (fuel : Nat)
    (st st1 : OptState)
    (hloop : st.cb.connections.length - st.completed.length > 0)
    (hpass : passRoute st = .ok st1) :
    optLoop choices (fuel + 1) st =
      (let st2 := snapshotStep st1
       if st2.completed.length = st2.completed_previously then
         if st2.iterN = max_iters then .done st2
         else if st2.completed.length < v_opt then .valueError
         else
           let c := choices st2.iterN
           if c.1 ∈ st2.completed ∧ c.2.1 ∈ st2.completed ∧ c.1 ≠ c.2.1 ∧
               (∀ x ∈ c.2.2, x < st2.cb.connections.length) then
             let st3 := deleteOne (deleteOne st2 c.1) c.2.1
             let st4 := { st3 with ordering := c.2.2, iterN := st3.iterN + 1 }
             optLoop choices fuel
               { st4 with completed_previously := st4.completed.length }
           else .badOracle
       else
         optLoop choices fuel { st2 with
           completed_previously := st2.completed.length }) := by
  rw [optLoop, if_pos hloop, hpass]

/-- C10: when a pass ends in stagnation (routed count unchanged) with fewer
than `v_opt = 2` connections currently routed and the iteration cap not yet
reached, the perturbation's `random.sample(completed_wires, 2)` raises an
uncaught ValueError instead of perturbing; the loop only continues (or
completes) past such a stagnation when at least 2 connections are routed. -/
theorem C10_stagnation_underflow (choices : Nat → Nat × Nat × List Nat)
    (fuel : Nat) (st st1 : OptState)
    (hloop : st.cb.connections.length - st.completed.length > 0)
    (hpass : passRoute st = .ok st1)
    (hstag : (snapshotStep st1).completed.length =
      (snapshotStep st1).completed_previously)
    (hiter : (snapshotStep st1).iterN ≠ max_iters)
    (hsmall : (snapshotStep st1).completed.length < v_opt) :
    optLoop choices (fuel + 1) st = .valueError := by
  rw [optLoop_succ_ok choices fuel st st1 hloop hpass]
  show (if (snapshotStep st1).completed.length =
      (snapshotStep st1).completed_previously then _ else _) = OptRes.valueError
  rw [if_pos hstag, if_neg hiter, if_pos hsmall]

/-- A board whose single connection is unroutable: both gates fill the
whole 1x1x2 grid, leaving no vacant connector cells at all. -/
def bdC10 : Board := mkBoard [(1, (0, 0, 0)), (2, (0, 0, 1))] [(1, 2)] (1, 1, 2)

/-- The trivial perturbation oracle. -/
def czero : Nat → Nat × Nat × List Nat := fun _ => (0, 0, [])

theorem C10_stagnation_underflow_witness :
    (bdC10.connections.length -
        (initOpt bdC10 [0]).completed.length > 0 ∧
      passRoute (initOpt bdC10 [0]) = .ok (initOpt bdC10 [0]) ∧
      (snapshotStep (initOpt bdC10 [0])).completed.length < v_opt) ∧
    optLoop czero 5 (initOpt bdC10 [0]) = .valueError :=
  ⟨⟨by decide, rfl, by decide⟩,
    C10_stagnation_underflow czero 4 (initOpt bdC10 [0]) (initOpt bdC10 [0])
      (by decide) rfl (by decide) (by decide) (by decide)⟩

end CircuitBoard

namespace CircuitBoard

/-! ### C2: the final grid is the best snapshot -/

/-- The aliasing invariant at pass boundaries: while `best_solution` aliases
`self.board` the snapshot value is the current board and the best score is
not ahead of the routed count; otherwise `best_solution`'s grid value (if
any) is exactly the snapshot value. -/
def AliasInv (st : OptState) : Prop :=
  (st.aliased = true → st.ghost = some st.cb.board ∧
    st.best_score ≤ st.completed.length) ∧
  (st.aliased = false → st.bestG = st.ghost)

theorem routeOne_effects (st : OptState) (i : Nat) (st1 : OptState)
    (h : routeOne st i = .ok st1) :
    st1.aliased = st.aliased ∧ st1.ghost = st.ghost ∧ st1.bestG = st.bestG ∧
    st1.best_score = st.best_score ∧
    st1.completed_previously = st.completed_previously ∧
    st1.iterN = st.iterN ∧ st1.cb.connections = st.cb.connections ∧
    st.completed.length ≤ st1.completed.length ∧
    (st1.completed.length = st.completed.length → st1 = st) := by
  unfold routeOne at h
  by_cases hc : st.completed.contains i
  · rw [if_pos hc] at h
    cases h
    exact ⟨rfl, rfl, rfl, rfl, rfl, rfl, rfl, le_refl _, fun _ => rfl⟩
  · rw [if_neg hc] at h
    cases hcg : connect_gates st.cb (st.cb.connections.getD i (0, 0)) with
    | error e => rw [hcg] at h; cases h
    | ok path =>
      rw [hcg] at h
      replace h :
          (if path.length > 0 then
            Except.ok { st with
              completed := st.completed ++ [i],
              cb := paintRoute st.cb i path }
          else Except.ok st) = Except.ok st1 := h
      by_cases hl : path.length > 0
      · rw [if_pos hl] at h
        cases h
        refine ⟨rfl, rfl, rfl, rfl, rfl, rfl, rfl, ?_, ?_⟩
        · simp
        · intro hlen
          simp at hlen
      · rw [if_neg hl] at h
        cases h
        exact ⟨rfl, rfl, rfl, rfl, rfl, rfl, rfl, le_refl _, fun _ => rfl⟩

theorem foldRoute_effects :
    ∀ (l : List Nat) (st st1 : OptState), l.foldlM routeOne st = .ok st1 →
    st1.aliased = st.aliased ∧ st1.ghost = st.ghost ∧ st1.bestG = st.bestG ∧
    st1.best_score = st.best_score ∧
    st1.completed_previously = st.completed_previously ∧
    st1.iterN = st.iterN ∧ st1.cb.connections = st.cb.connections ∧
    st.completed.length ≤ st1.completed.length ∧
    (st1.completed.length = st.completed.length → st1 = st) := by
  intro l
  induction l with
  | nil =>
    intro st st1 h
    cases h
    exact ⟨rfl, rfl, rfl, rfl, rfl, rfl, rfl, le_refl _, fun _ => rfl⟩
  | cons i rest ih =>
    intro st st1 h
    rw [List.foldlM_cons] at h
    cases hstep : routeOne st i with
    | error e => rw [hstep] at h; cases h
    | ok stA =>
      rw [hstep] at h
      obtain ⟨e1, e2, e3, e4, e5, e6, e7, e8, e9⟩ :=
        routeOne_effects st i stA hstep
      obtain ⟨f1, f2, f3, f4, f5, f6, f7, f8, f9⟩ := ih stA st1 h
      refine ⟨f1.trans e1, f2.trans e2, f3.trans e3, f4.trans e4,
        f5.trans e5, f6.trans e6, f7.trans e7, le_trans e8 f8, ?_⟩
      intro hlen
      have hA : stA.completed.length = st.completed.length := by omega
      have hAeq := e9 hA
      subst hAeq
      exact f9 hlen

theorem passRoute_effects (st st1 : OptState) (h : passRoute st = .ok st1) :
    st1.aliased = st.aliased ∧ st1.ghost = st.ghost ∧ st1.bestG = st.bestG ∧
    st1.best_score = st.best_score ∧
    st1.completed_previously = st.completed_previously ∧
    st1.iterN = st.iterN ∧ st1.cb.connections = st.cb.connections ∧
    st.completed.length ≤ st1.completed.length ∧
    (st1.completed.length = st.completed.length → st1 = st) :=
  foldRoute_effects st.ordering st st1 h

theorem snapshot_AliasInv (st st1 : OptState) (hinv : AliasInv st)
    (hpass : passRoute st = .ok st1) : AliasInv (snapshotStep st1) := by
  obtain ⟨e1, e2, e3, e4, _, _, _, e8, e9⟩ := passRoute_effects st st1 hpass
  unfold snapshotStep
  by_cases hfire : st1.completed.length > st1.best_score
  · rw [if_pos hfire]
    constructor
    · intro _
      exact ⟨rfl, le_refl _⟩
    · intro hc
      cases hc
  · rw [if_neg hfire]
    by_cases hsame : st1.completed.length = st.completed.length
    · have hst1 := e9 hsame
      subst hst1
      exact hinv
    · constructor
      · intro ha
        obtain ⟨hg, hb⟩ := hinv.1 (e1 ▸ ha)
        exfalso
        rw [e4] at hfire
        omega
      · intro ha
        rw [e3, e2]
        exact hinv.2 (e1 ▸ ha)

theorem deleteOne_AliasInv (st : OptState) (j : Nat) (hinv : AliasInv st) :
    AliasInv (deleteOne st j) ∧ (deleteOne st j).aliased = false := by
  unfold deleteOne
  by_cases ha : st.aliased
  · rw [if_pos ha]
    refine ⟨⟨?_, ?_⟩, rfl⟩
    · intro hc; cases hc
    · intro _
      show some st.cb.board = st.ghost
      exact (hinv.1 ha).1.symm
  · rw [if_neg ha]
    have ha2 : st.aliased = false := by
      cases hv : st.aliased
      · rfl
      · exact absurd hv ha
    refine ⟨⟨?_, ?_⟩, ha2⟩
    · intro hc
      rw [ha2] at hc
      cases hc
    · intro _
      show st.bestG = st.ghost
      exact hinv.2 ha2

theorem optLoop_alias (choices : Nat → Nat × Nat × List Nat) :
    ∀ (fuel : Nat) (st : OptState), AliasInv st →
      ∀ stF, optLoop choices fuel st = .done stF → AliasInv stF := by
  intro fuel
  induction fuel with
  | zero => intro st _ stF h; cases h
  | succ fuel ih =>
    intro st hinv stF h
    rw [optLoop] at h
    by_cases hloop : st.cb.connections.length - st.completed.length > 0
    · rw [if_pos hloop] at h
      cases hpass : passRoute st with
      | error e => rw [hpass] at h; cases h
      | ok st1 =>
        rw [hpass] at h
        replace h :
            (let st2 := snapshotStep st1
             if st2.completed.length = st2.completed_previously then
               if st2.iterN = max_iters then OptRes.done st2
               else if st2.completed.length < v_opt then OptRes.valueError
               else
                 let c := choices st2.iterN
                 if c.1 ∈ st2.completed ∧ c.2.1 ∈ st2.completed ∧
                     c.1 ≠ c.2.1 ∧
                     (∀ x ∈ c.2.2, x < st2.cb.connections.length) then
                   let st3 := deleteOne (deleteOne st2 c.1) c.2.1
                   let st4 := { st3 with
                     ordering := c.2.2, iterN := st3.iterN + 1 }
                   optLoop choices fuel
                     { st4 with completed_previously := st4.completed.length }
                 else OptRes.badOracle
             else
               optLoop choices fuel { st2 with
                 completed_previously := st2.completed.length }) =
              OptRes.done stF := h
        have hinv2 : AliasInv (snapshotStep st1) :=
          snapshot_AliasInv st st1 hinv hpass
        by_cases hstag : (snapshotStep st1).completed.length =
            (snapshotStep st1).completed_previously
        · rw [if_pos hstag] at h
          by_cases hiter : (snapshotStep st1).iterN = max_iters
          · rw [if_pos hiter] at h
            cases h
            exact hinv2
          · rw [if_neg hiter] at h
            by_cases hsmall : (snapshotStep st1).completed.length < v_opt
            · rw [if_pos hsmall] at h
              cases h
            · rw [if_neg hsmall] at h
              by_cases hok : (choices (snapshotStep st1).iterN).1 ∈
                    (snapshotStep st1).completed ∧
                  (choices (snapshotStep st1).iterN).2.1 ∈
                    (snapshotStep st1).completed ∧
                  (choices (snapshotStep st1).iterN).1 ≠
                    (choices (snapshotStep st1).iterN).2.1 ∧
                  (∀ x ∈ (choices (snapshotStep st1).iterN).2.2,
                    x < (snapshotStep st1).cb.connections.length)
              · rw [if_pos hok] at h
                have hinv3 := (deleteOne_AliasInv _
                  (choices (snapshotStep st1).iterN).2.1
                  ((deleteOne_AliasInv (snapshotStep st1)
                    (choices (snapshotStep st1).iterN).1 hinv2).1)).1
                refine ih _ ?_ stF h
                exact hinv3
              · rw [if_neg hok] at h
                cases h
        · rw [if_neg hstag] at h
          refine ih _ ?_ stF h
          exact hinv2
    · rw [if_neg hloop] at h
      cases h
      exact hinv

/-- C2: when the optimizer terminates normally after having recorded at
least one best snapshot, the final `self.board = best_solution` assignment
leaves exactly the grid as it was at the moment the best routed count was
recorded (the snapshot instrumented in `ghost`), regardless of any later
painting or perturbation. -/
theorem C2_final_board_is_snapshot (b : Board)
    (choices : Nat → Nat × Nat × List Nat) (fuel : Nat) (ord : List Nat)
    (hord : initOrdering b = .ok ord) (stF : OptState)
    (h : complete_board b choices fuel = .done stF) (g : Grid)
    (hg : stF.ghost = some g) : finalizeBoard stF = .grid g := by
  unfold complete_board at h
  rw [hord] at h
  have hinv0 : AliasInv (initOpt b ord) := by
    constructor
    · intro hc
      cases hc
    · intro _
      rfl
  have hF := optLoop_alias choices fuel _ hinv0 stF h
  cases ha : stF.aliased with
  | false =>
    have hbg := hF.2 ha
    unfold finalizeBoard currentBest
    rw [ha, hbg, hg]
    rfl
  | true =>
    have hgb := (hF.1 ha).1
    rw [hg] at hgb
    have hbe := Option.some.inj hgb
    unfold finalizeBoard currentBest
    rw [ha, ← hbe]
    rfl

end CircuitBoard

namespace CircuitBoard

/-- The state `complete_board` reaches on the one-connection board `wb4`
(computed; the equality below is by evaluation). -/
def c2cb : Board where
  dimensions := (1, 2, 2)
  gates := [(1, (0, 0, 0)), (2, (0, 1, 1))]
  connections := [(1, 2)]
  board := [[["GA", "__"], ["01", "GA"]]]
  needs_connections := [(PyKey.gateK 1, 0), (PyKey.gateK 2, 0)]
  neighbor_of := [((0, 1, 0), [1, 2]), ((0, 0, 1), [1, 2])]
  free_connectors := [(0, 1, 0), (0, 0, 1)]

def c2done : OptState where
  cb := c2cb
  ordering := [0]
  ord0 := [0]
  completed := [0]
  best_score := 1
  bestG := none
  aliased := true
  ghost := some [[["GA", "__"], ["01", "GA"]]]
  iterN := 0
  completed_previously := 1

theorem C2_final_board_is_snapshot_witness :
    (initOrdering wb4 = .ok [0] ∧
      complete_board wb4 czero 5 = .done c2done ∧
      c2done.ghost = some [[["GA", "__"], ["01", "GA"]]]) ∧
    finalizeBoard c2done = .grid [[["GA", "__"], ["01", "GA"]]] :=
  ⟨⟨rfl, rfl, rfl⟩,
    C2_final_board_is_snapshot wb4 czero 5 [0] rfl c2done rfl
      [[["GA", "__"], ["01", "GA"]]] rfl⟩

end CircuitBoard

namespace CircuitBoard

/-! ### C9: the gate-counter invariant -/

/-- How many endpoints of one connection pair touch gate `g` (0, 1 or 2). -/
def incid (p : Nat × Nat) (g : Nat) : Int :=
  (if p.1 = g then 1 else 0) + (if p.2 = g then 1 else 0)

/-- Gate `g`'s required degree: its total endpoint count over the
connection list. -/
def degSum (conns : List (Nat × Nat)) (g : Nat) : Int :=
  (conns.map (fun p => incid p g)).sum

/-- The number of currently-routed nets incident to `g` (counting a loop
net twice, as `gate_connectors` does). -/
def routedDeg (conns : List (Nat × Nat)) (completed : List Nat) (g : Nat) : Int :=
  (completed.map (fun i => incid (conns.getD i (0, 0)) g)).sum

theorem incid_nonneg (p : Nat × Nat) (g : Nat) : 0 ≤ incid p g := by
  unfold incid
  split <;> split <;> omega

theorem degSum_as_range (conns : List (Nat × Nat)) (g : Nat) :
    degSum conns g =
      ((List.range conns.length).map
        (fun i => incid (conns.getD i (0, 0)) g)).sum := by
  induction conns with
  | nil => rfl
  | cons p rest ih =>
    show incid p g + degSum rest g = _
    rw [List.length_cons, List.range_succ_eq_map, List.map_cons, List.sum_cons,
      List.map_map]
    have hmap : (List.range rest.length).map
          ((fun i => incid ((p :: rest).getD i (0, 0)) g) ∘ Nat.succ) =
        (List.range rest.length).map (fun i => incid (rest.getD i (0, 0)) g) := by
      apply List.map_congr_left
      intro i _
      rfl
    rw [hmap, ← ih]
    rfl

theorem listRange_toFinset (n : Nat) : (List.range n).toFinset = Finset.range n := by
  ext i
  simp

theorem routedDeg_le_degSum (conns : List (Nat × Nat)) (completed : List Nat)
    (g : Nat) (hnd : completed.Nodup)
    (hin : ∀ i ∈ completed, i < conns.length) :
    routedDeg conns completed g ≤ degSum conns g := by
  rw [degSum_as_range]
  unfold routedDeg
  rw [← List.sum_toFinset _ hnd, ← List.sum_toFinset _ (List.nodup_range _)]
  rw [listRange_toFinset]
  apply Finset.sum_le_sum_of_subset_of_nonneg
  · intro i hi
    rw [Finset.mem_range]
    exact hin i (List.mem_toFinset.mp hi)
  · intro i _ _
    exact incid_nonneg _ _

theorem incid_le_degSum (conns : List (Nat × Nat)) (i : Nat) (g : Nat)
    (hi : i < conns.length) :
    incid (conns.getD i (0, 0)) g ≤ degSum conns g := by
  rw [degSum_as_range]
  apply List.single_le_sum
  · intro x hx
    rcases List.mem_map.mp hx with ⟨j, _, hj⟩
    rw [← hj]
    exact incid_nonneg _ _
  · exact List.mem_map_of_mem _ (List.mem_range.mpr hi)

theorem routedDeg_append (conns : List (Nat × Nat)) (completed : List Nat)
    (i : Nat) (g : Nat) :
    routedDeg conns (completed ++ [i]) g =
      routedDeg conns completed g + incid (conns.getD i (0, 0)) g := by
  unfold routedDeg
  rw [List.map_append, List.sum_append]
  simp

theorem routedDeg_removeFirst (conns : List (Nat × Nat)) (completed : List Nat)
    (j : Nat) (g : Nat) (hj : j ∈ completed) :
    routedDeg conns completed g =
      incid (conns.getD j (0, 0)) g +
        routedDeg conns (removeFirst completed j) g := by
  induction completed with
  | nil => cases hj
  | cons x rest ih =>
    by_cases he : x = j
    · subst he
      unfold routedDeg
      rw [removeFirst, if_pos rfl, List.map_cons, List.sum_cons]
    · have hj2 : j ∈ rest := by
        rcases List.mem_cons.mp hj with h1 | h1
        · exact absurd h1.symm he
        · exact h1
      unfold routedDeg
      rw [removeFirst, if_neg he, List.map_cons, List.map_cons, List.sum_cons,
        List.sum_cons]
      have := ih hj2
      unfold routedDeg at this
      rw [this]
      ring

theorem removeFirst_sublist {α : Type} [DecidableEq α] (l : List α) (a : α) :
    List.Sublist (removeFirst l a) l := by
  induction l with
  | nil => exact List.Sublist.refl _
  | cons x rest ih =>
    by_cases he : x = a
    · rw [removeFirst, if_pos he]
      exact List.sublist_cons_self _ _
    · rw [removeFirst, if_neg he]
      exact List.Sublist.cons₂ _ ih

theorem dictGet_dictAdd {α : Type} [DecidableEq α] (m : List (α × Int))
    (k k2 : α) (d : Int) :
    dictGet (dictAdd m k d) k2 =
      (if k = k2 then some ((dictGet m k).getD 0 + d) else dictGet m k2) := by
  unfold dictAdd
  by_cases he : k = k2
  · subst he
    rw [if_pos rfl, dictGet_dictSet_self]
  · rw [if_neg he, dictGet_dictSet_ne _ _ _ _ he]

end CircuitBoard

namespace CircuitBoard

theorem degSum_nonneg (conns : List (Nat × Nat)) (g : Nat) :
    0 ≤ degSum conns g := by
  apply List.sum_nonneg
  intro x hx
  rcases List.mem_map.mp hx with ⟨p, _, hp⟩
  rw [← hp]
  exact incid_nonneg _ _

theorem dictAdd_pair_get (acc : List (PyKey × Int)) (p : Nat × Nat) (g : Nat)
    (d : Int) :
    dictGet (dictAdd (dictAdd acc (PyKey.gateK p.1) d) (PyKey.gateK p.2) d)
        (PyKey.gateK g) =
      (if incid p g = 0 then dictGet acc (PyKey.gateK g)
       else some ((dictGet acc (PyKey.gateK g)).getD 0 + incid p g * d)) := by
  obtain ⟨a, b2⟩ := p
  simp only [dictGet_dictAdd]
  unfold incid
  by_cases hb : b2 = g <;> by_cases ha : a = g <;>
    simp [hb, ha] <;> ring

theorem gate_connectors_fold (conns : List (Nat × Nat)) :
    ∀ (acc : List (PyKey × Int)) (g : Nat),
    dictGet (conns.foldl (fun counts pair =>
        dictAdd (dictAdd counts (PyKey.gateK pair.1) 1) (PyKey.gateK pair.2) 1)
      acc) (PyKey.gateK g) =
      (match dictGet acc (PyKey.gateK g) with
       | some v => some (v + degSum conns g)
       | none => if degSum conns g = 0 then none
                 else some (degSum conns g)) := by
  induction conns with
  | nil =>
    intro acc g
    show dictGet acc (PyKey.gateK g) = _
    cases h : dictGet acc (PyKey.gateK g) <;> simp [degSum, h]
  | cons p rest ih =>
    intro acc g
    rw [List.foldl_cons, ih, dictAdd_pair_get]
    have hd : degSum (p :: rest) g = incid p g + degSum rest g := by
      unfold degSum
      rw [List.map_cons, List.sum_cons]
    rw [hd]
    have hnn := degSum_nonneg rest g
    have hinn := incid_nonneg p g
    by_cases hz : incid p g = 0
    · rw [if_pos hz, hz]
      cases h : dictGet acc (PyKey.gateK g) <;> simp [h]
    · rw [if_neg hz]
      cases h : dictGet acc (PyKey.gateK g)
      · simp only [h, Option.getD_none]
        have h1 : ¬ (incid p g + degSum rest g = 0) := by omega
        rw [if_neg h1]
        congr 1
        ring
      · simp only [h, Option.getD_some]
        congr 1
        omega

theorem gate_connectors_counts (conns : List (Nat × Nat)) (g : Nat) :
    dictGet (gate_connectors conns) (PyKey.gateK g) =
      (if degSum conns g = 0 then none else some (degSum conns g)) := by
  unfold gate_connectors
  rw [gate_connectors_fold]
  rfl

end CircuitBoard

namespace CircuitBoard

/-- The gate-counter invariant of `complete_board`: the completed list has
no duplicates, every completed index addresses a real connection, and each
gate's `needs_connections` entry equals its required degree minus the routed
incident count (absent exactly when the gate occurs in no connection). -/
structure NeedsInv (st : OptState) : Prop where
  nodup : st.completed.Nodup
  inRange : ∀ i ∈ st.completed, i < st.cb.connections.length
  counts : ∀ g, dictGet st.cb.needs_connections (PyKey.gateK g) =
    (if degSum st.cb.connections g = 0 then none
     else some (degSum st.cb.connections g -
       routedDeg st.cb.connections st.completed g))

theorem initOpt_NeedsInv (gates : List (Nat × Coord))
    (conns : List (Nat × Nat)) (dims : Coord) (ord : List Nat) :
    NeedsInv (initOpt (mkBoard gates conns dims) ord) := by
  constructor
  · exact List.nodup_nil
  · intro i hi
    cases hi
  · intro g
    show dictGet (gate_connectors conns) (PyKey.gateK g) =
      if degSum conns g = 0 then none
      else some (degSum conns g - routedDeg conns [] g)
    rw [gate_connectors_counts]
    simp [routedDeg]

theorem routeOne_NeedsInv (st st1 : OptState) (i : Nat)
    (hi : i < st.cb.connections.length) (hinv : NeedsInv st)
    (h : routeOne st i = .ok st1) : NeedsInv st1 := by
  unfold routeOne at h
  by_cases hc : st.completed.contains i
  · rw [if_pos hc] at h
    cases h
    exact hinv
  · rw [if_neg hc] at h
    cases hcg : connect_gates st.cb (st.cb.connections.getD i (0, 0)) with
    | error e => rw [hcg] at h; cases h
    | ok path =>
      rw [hcg] at h
      replace h :
          (if path.length > 0 then
            Except.ok { st with
              completed := st.completed ++ [i],
              cb := paintRoute st.cb i path }
          else Except.ok st) = Except.ok st1 := h
      by_cases hl : path.length > 0
      · rw [if_pos hl] at h
        cases h
        have hcf : st.completed.contains i = false := by
          cases hv : st.completed.contains i
          · rfl
          · exact absurd hv hc
        have hnm : i ∉ st.completed := contains_false_not_mem _ _ hcf
        constructor
        · exact List.Nodup.append hinv.nodup (List.nodup_singleton i)
            (by
              intro a ha hb
              rcases List.mem_singleton.mp hb with rfl
              exact hnm ha)
        · intro j hj
          show j < st.cb.connections.length
          rcases List.mem_append.mp hj with h1 | h1
          · exact hinv.inRange j h1
          · rcases List.mem_singleton.mp h1 with rfl
            exact hi
        · intro g
          show dictGet (dictAdd (dictAdd st.cb.needs_connections
              (PyKey.gateK (st.cb.connections.getD i (0, 0)).1) (-1))
              (PyKey.gateK (st.cb.connections.getD i (0, 0)).2) (-1))
              (PyKey.gateK g) = _
          rw [dictAdd_pair_get]
          by_cases hz : incid (st.cb.connections.getD i (0, 0)) g = 0
          · rw [if_pos hz, hinv.counts g]
            show _ = if degSum st.cb.connections g = 0 then none
              else some (degSum st.cb.connections g -
                routedDeg st.cb.connections (st.completed ++ [i]) g)
            rw [routedDeg_append, hz, add_zero]
          · rw [if_neg hz, hinv.counts g]
            have hle := incid_le_degSum st.cb.connections i g hi
            have hin := incid_nonneg (st.cb.connections.getD i (0, 0)) g
            have hdeg : ¬ (degSum st.cb.connections g = 0) := by omega
            rw [if_neg hdeg]
            show _ = if degSum st.cb.connections g = 0 then none
              else some (degSum st.cb.connections g -
                routedDeg st.cb.connections (st.completed ++ [i]) g)
            rw [if_neg hdeg, routedDeg_append]
            simp only [Option.getD_some]
            congr 1
            ring
      · rw [if_neg hl] at h
        cases h
        exact hinv

theorem mem_removeFirst_of_ne {α : Type} [DecidableEq α] {l : List α}
    {a b : α} (ha : a ∈ l) (hne : a ≠ b) : a ∈ removeFirst l b := by
  induction l with
  | nil => cases ha
  | cons x rest ih =>
    by_cases hx : x = b
    · rw [removeFirst, if_pos hx]
      rcases List.mem_cons.mp ha with h1 | h1
      · exact absurd (h1.trans hx) hne
      · exact h1
    · rw [removeFirst, if_neg hx]
      rcases List.mem_cons.mp ha with h1 | h1
      · rw [h1]
        exact List.mem_cons_self _ _
      · exact List.mem_cons_of_mem _ (ih h1)

theorem deleteOne_completed (st : OptState) (j : Nat) :
    (deleteOne st j).completed = removeFirst st.completed j := by
  unfold deleteOne
  by_cases ha : st.aliased
  · rw [if_pos ha]
  · rw [if_neg ha]

theorem deleteOne_cb (st : OptState) (j : Nat) :
    (deleteOne st j).cb = delete_connection st.cb j
      ((wire_names st.cb.connections.length).getD j "") := by
  unfold deleteOne
  by_cases ha : st.aliased
  · rw [if_pos ha]
  · rw [if_neg ha]

theorem deleteOne_connections (st : OptState) (j : Nat) :
    (deleteOne st j).cb.connections = st.cb.connections := by
  rw [deleteOne_cb]
  rfl

theorem deleteOne_ordering (st : OptState) (j : Nat) :
    (deleteOne st j).ordering = st.ordering := by
  unfold deleteOne
  by_cases ha : st.aliased
  · rw [if_pos ha]
  · rw [if_neg ha]

theorem deleteOne_NeedsInv (st : OptState) (j : Nat) (hj : j ∈ st.completed)
    (hinv : NeedsInv st) : NeedsInv (deleteOne st j) := by
  have hjr := hinv.inRange j hj
  constructor
  · rw [deleteOne_completed]
    exact List.Nodup.sublist (removeFirst_sublist _ _) hinv.nodup
  · intro i hi
    rw [deleteOne_connections]
    rw [deleteOne_completed] at hi
    exact hinv.inRange i (List.Sublist.subset (removeFirst_sublist _ _) hi)
  · intro g
    rw [deleteOne_cb, deleteOne_completed]
    show dictGet (dictAdd (dictAdd st.cb.needs_connections
        (PyKey.gateK (st.cb.connections.getD j (0, 0)).1) 1)
        (PyKey.gateK (st.cb.connections.getD j (0, 0)).2) 1)
        (PyKey.gateK g) =
      if degSum st.cb.connections g = 0 then none
      else some (degSum st.cb.connections g -
        routedDeg st.cb.connections (removeFirst st.completed j) g)
    rw [dictAdd_pair_get]
    have hr := routedDeg_removeFirst st.cb.connections st.completed j g hj
    by_cases hz : incid (st.cb.connections.getD j (0, 0)) g = 0
    · rw [if_pos hz, hinv.counts g]
      rw [hz, zero_add] at hr
      rw [← hr]
    · rw [if_neg hz, hinv.counts g]
      have hle := incid_le_degSum st.cb.connections j g hjr
      have hin := incid_nonneg (st.cb.connections.getD j (0, 0)) g
      have hdeg : ¬ (degSum st.cb.connections g = 0) := by omega
      rw [if_neg hdeg, if_neg hdeg]
      simp only [Option.getD_some]
      congr 1
      omega

theorem needs_value (st : OptState) (g : Nat) (v : Int) (hinv : NeedsInv st)
    (h : dictGet st.cb.needs_connections (PyKey.gateK g) = some v) :
    v = degSum st.cb.connections g -
      routedDeg st.cb.connections st.completed g ∧ 0 ≤ v := by
  have hc := hinv.counts g
  rw [h] at hc
  by_cases hz : degSum st.cb.connections g = 0
  · rw [if_pos hz] at hc
    cases hc
  · rw [if_neg hz] at hc
    have hv := Option.some.inj hc
    have hle := routedDeg_le_degSum st.cb.connections st.completed g
      hinv.nodup hinv.inRange
    constructor
    · exact hv
    · omega

end CircuitBoard

namespace CircuitBoard

theorem routeOne_ordering (st st1 : OptState) (i : Nat)
    (h : routeOne st i = .ok st1) : st1.ordering = st.ordering := by
  unfold routeOne at h
  by_cases hc : st.completed.contains i
  · rw [if_pos hc] at h
    cases h
    rfl
  · rw [if_neg hc] at h
    cases hcg : connect_gates st.cb (st.cb.connections.getD i (0, 0)) with
    | error e => rw [hcg] at h; cases h
    | ok path =>
      rw [hcg] at h
      replace h :
          (if path.length > 0 then
            Except.ok { st with
              completed := st.completed ++ [i],
              cb := paintRoute st.cb i path }
          else Except.ok st) = Except.ok st1 := h
      by_cases hl : path.length > 0
      · rw [if_pos hl] at h
        cases h
        rfl
      · rw [if_neg hl] at h
        cases h
        rfl

theorem foldRoute_ordering :
    ∀ (l : List Nat) (st st1 : OptState), l.foldlM routeOne st = .ok st1 →
      st1.ordering = st.ordering := by
  intro l
  induction l with
  | nil =>
    intro st st1 h
    cases h
    rfl
  | cons i rest ih =>
    intro st st1 h
    rw [List.foldlM_cons] at h
    cases hstep : routeOne st i with
    | error e => rw [hstep] at h; cases h
    | ok stA =>
      rw [hstep] at h
      exact (ih stA st1 h).trans (routeOne_ordering st stA i hstep)

theorem foldRoute_NeedsInv :
    ∀ (l : List Nat) (st st1 : OptState),
      (∀ x ∈ l, x < st.cb.connections.length) → NeedsInv st →
      l.foldlM routeOne st = .ok st1 → NeedsInv st1 := by
  intro l
  induction l with
  | nil =>
    intro st st1 _ hinv h
    cases h
    exact hinv
  | cons i rest ih =>
    intro st st1 hb hinv h
    rw [List.foldlM_cons] at h
    cases hstep : routeOne st i with
    | error e => rw [hstep] at h; cases h
    | ok stA =>
      rw [hstep] at h
      have hconn := (routeOne_effects st i stA hstep).2.2.2.2.2.2.1
      refine ih stA st1 ?_ ?_ h
      · intro x hx
        rw [hconn]
        exact hb x (List.mem_cons_of_mem _ hx)
      · exact routeOne_NeedsInv st stA i
          (hb i (List.mem_cons_self _ _)) hinv hstep

theorem snapshot_NeedsInv (st : OptState) (hinv : NeedsInv st) :
    NeedsInv (snapshotStep st) := by
  unfold snapshotStep
  by_cases hfire : st.completed.length > st.best_score
  · rw [if_pos hfire]
    exact ⟨hinv.nodup, hinv.inRange, hinv.counts⟩
  · rw [if_neg hfire]
    exact hinv

theorem snapshotStep_ordering (st : OptState) :
    (snapshotStep st).ordering = st.ordering := by
  unfold snapshotStep
  by_cases hfire : st.completed.length > st.best_score
  · rw [if_pos hfire]
  · rw [if_neg hfire]

theorem snapshotStep_cb (st : OptState) :
    (snapshotStep st).cb = st.cb := by
  unfold snapshotStep
  by_cases hfire : st.completed.length > st.best_score
  · rw [if_pos hfire]
  · rw [if_neg hfire]

theorem optLoop_NeedsInv (choices : Nat → Nat × Nat × List Nat) :
    ∀ (fuel : Nat) (st : OptState),
      (∀ x ∈ st.ordering, x < st.cb.connections.length) → NeedsInv st →
      ∀ stF, optLoop choices fuel st = .done stF → NeedsInv stF := by
  intro fuel
  induction fuel with
  | zero => intro st _ _ stF h; cases h
  | succ fuel ih =>
    intro st hord hinv stF h
    rw [optLoop] at h
    by_cases hloop : st.cb.connections.length - st.completed.length > 0
    · rw [if_pos hloop] at h
      cases hpass : passRoute st with
      | error e => rw [hpass] at h; cases h
      | ok st1 =>
        rw [hpass] at h
        replace h :
            (let st2 := snapshotStep st1
             if st2.completed.length = st2.completed_previously then
               if st2.iterN = max_iters then OptRes.done st2
               else if st2.completed.length < v_opt then OptRes.valueError
               else
                 let c := choices st2.iterN
                 if c.1 ∈ st2.completed ∧ c.2.1 ∈ st2.completed ∧
                     c.1 ≠ c.2.1 ∧
                     (∀ x ∈ c.2.2, x < st2.cb.connections.length) then
                   let st3 := deleteOne (deleteOne st2 c.1) c.2.1
                   let st4 := { st3 with
                     ordering := c.2.2, iterN := st3.iterN + 1 }
                   optLoop choices fuel
                     { st4 with completed_previously := st4.completed.length }
                 else OptRes.badOracle
             else
               optLoop choices fuel { st2 with
                 completed_previously := st2.completed.length }) =
              OptRes.done stF := h
        have hinv1 : NeedsInv st1 :=
          foldRoute_NeedsInv st.ordering st st1 hord hinv hpass
        have hord1 : st1.ordering = st.ordering :=
          foldRoute_ordering st.ordering st st1 hpass
        have hconn1 : st1.cb.connections = st.cb.connections :=
          (passRoute_effects st st1 hpass).2.2.2.2.2.2.1
        have hinv2 : NeedsInv (snapshotStep st1) := snapshot_NeedsInv st1 hinv1
        have hord2 : ∀ x ∈ (snapshotStep st1).ordering,
            x < (snapshotStep st1).cb.connections.length := by
          rw [snapshotStep_ordering, snapshotStep_cb, hord1, hconn1]
          exact hord
        by_cases hstag : (snapshotStep st1).completed.length =
            (snapshotStep st1).completed_previously
        · rw [if_pos hstag] at h
          by_cases hiter : (snapshotStep st1).iterN = max_iters
          · rw [if_pos hiter] at h
            cases h
            exact hinv2
          · rw [if_neg hiter] at h
            by_cases hsmall : (snapshotStep st1).completed.length < v_opt
            · rw [if_pos hsmall] at h
              cases h
            · rw [if_neg hsmall] at h
              by_cases hok : (choices (snapshotStep st1).iterN).1 ∈
                    (snapshotStep st1).completed ∧
                  (choices (snapshotStep st1).iterN).2.1 ∈
                    (snapshotStep st1).completed ∧
                  (choices (snapshotStep st1).iterN).1 ≠
                    (choices (snapshotStep st1).iterN).2.1 ∧
                  (∀ x ∈ (choices (snapshotStep st1).iterN).2.2,
                    x < (snapshotStep st1).cb.connections.length)
              · rw [if_pos hok] at h
                have hmem2 : (choices (snapshotStep st1).iterN).2.1 ∈
                    (deleteOne (snapshotStep st1)
                      (choices (snapshotStep st1).iterN).1).completed := by
                  rw [deleteOne_completed]
                  exact mem_removeFirst_of_ne hok.2.1 (Ne.symm hok.2.2.1)
                have hinv3 : NeedsInv (deleteOne (deleteOne (snapshotStep st1)
                    (choices (snapshotStep st1).iterN).1)
                    (choices (snapshotStep st1).iterN).2.1) :=
                  deleteOne_NeedsInv _ _ hmem2
                    (deleteOne_NeedsInv _ _ hok.1 hinv2)
                refine ih _ ?_ ?_ stF h
                · intro x hx
                  show x <
                    ((deleteOne
                      (deleteOne (snapshotStep st1)
                        (choices (snapshotStep st1).iterN).1)
                      (choices (snapshotStep st1).iterN).2.1).cb.connections).length
                  rw [deleteOne_connections, deleteOne_connections]
                  exact hok.2.2.2 x hx
                · exact ⟨hinv3.nodup, hinv3.inRange, hinv3.counts⟩
              · rw [if_neg hok] at h
                cases h
        · rw [if_neg hstag] at h
          refine ih _ ?_ ?_ stF h
          · exact hord2
          · exact ⟨hinv2.nodup, hinv2.inRange, hinv2.counts⟩
    · rw [if_neg hloop] at h
      cases h
      exact hinv

end CircuitBoard

namespace CircuitBoard

theorem mem_insertBy {α : Type} (le : α → α → Bool) (x : α) (l : List α)
    (a : α) : a ∈ insertBy le x l ↔ a = x ∨ a ∈ l := by
  induction l with
  | nil => simp [insertBy]
  | cons y rest ih =>
    unfold insertBy
    by_cases hle : le x y
    · rw [if_pos hle]
      simp
    · rw [if_neg hle]
      simp only [List.mem_cons, ih]
      tauto

theorem mem_sortBy {α : Type} (le : α → α → Bool) (l : List α) (a : α) :
    a ∈ sortBy le l ↔ a ∈ l := by
  induction l with
  | nil => simp [sortBy]
  | cons x rest ih =>
    unfold sortBy
    rw [mem_insertBy]
    simp [ih]

theorem initOrdering_bound (b : Board) (ord : List Nat)
    (h : initOrdering b = .ok ord) : ∀ x ∈ ord, x < b.connections.length := by
  unfold initOrdering at h
  cases hm : b.connections.mapM (fun c => connect_gates b c) with
  | error e =>
    rw [hm] at h
    replace h : (Except.error e : Except Unit (List Nat)) = Except.ok ord := h
    cases h
  | ok paths =>
    rw [hm] at h
    have h2 := Except.ok.inj h
    intro x hx
    rw [← h2] at hx
    rcases List.mem_map.mp hx with ⟨p, hp, hpx⟩
    rw [mem_sortBy] at hp
    obtain ⟨a, b2⟩ := p
    have hz := List.of_mem_zip hp
    rw [← hpx]
    exact List.mem_range.mp hz.1

theorem complete_board_NeedsInv (gates : List (Nat × Coord))
    (conns : List (Nat × Nat)) (dims : Coord)
    (choices : Nat → Nat × Nat × List Nat) (fuel : Nat) (stF : OptState)
    (h : complete_board (mkBoard gates conns dims) choices fuel = .done stF) :
    NeedsInv stF := by
  unfold complete_board at h
  cases hord : initOrdering (mkBoard gates conns dims) with
  | error e => rw [hord] at h; cases h
  | ok ord =>
    rw [hord] at h
    refine optLoop_NeedsInv choices fuel
      (initOpt (mkBoard gates conns dims) ord) ?_
      (initOpt_NeedsInv gates conns dims ord) stF h
    intro x hx
    exact initOrdering_bound _ _ hord x hx

end CircuitBoard

namespace CircuitBoard

/-- C9: throughout the optimizer's run, every gate's connections-remaining
counter equals its required degree (total endpoint count in the connection
list) minus the number of currently-routed nets incident to it, and it is
never negative.  The invariant `NeedsInv` holds initially, is preserved by
every routing-pass decrement (`routeOne`) and every undo increment
(`deleteOne`), hence holds in every state `complete_board` can terminate in;
and whenever it holds, every stored counter value is exactly the degree
difference and is non-negative. -/
theorem C9_gate_counter_invariant :
    (∀ (gates : List (Nat × Coord)) (conns : List (Nat × Nat)) (dims : Coord)
        (ord : List Nat), NeedsInv (initOpt (mkBoard gates conns dims) ord)) ∧
    (∀ (st st1 : OptState) (i : Nat), i < st.cb.connections.length →
      NeedsInv st → routeOne st i = .ok st1 → NeedsInv st1) ∧
    (∀ (st : OptState) (j : Nat), j ∈ st.completed → NeedsInv st →
      NeedsInv (deleteOne st j)) ∧
    (∀ (gates : List (Nat × Coord)) (conns : List (Nat × Nat)) (dims : Coord)
        (choices : Nat → Nat × Nat × List Nat) (fuel : Nat) (stF : OptState),
      complete_board (mkBoard gates conns dims) choices fuel = .done stF →
      NeedsInv stF) ∧
    (∀ (st : OptState) (g : Nat) (v : Int), NeedsInv st →
      dictGet st.cb.needs_connections (PyKey.gateK g) = some v →
      v = degSum st.cb.connections g -
        routedDeg st.cb.connections st.completed g ∧ 0 ≤ v) :=
  ⟨initOpt_NeedsInv,
   fun st st1 i hi hinv h => routeOne_NeedsInv st st1 i hi hinv h,
   deleteOne_NeedsInv,
   complete_board_NeedsInv,
   fun st g v hinv h => needs_value st g v hinv h⟩

theorem C9_gate_counter_invariant_witness :
    NeedsInv (initOpt
      (mkBoard [(1, (0, 0, 0)), (2, (0, 1, 1))] [(1, 2)] (1, 2, 2)) [0]) ∧
    ((1 : Int) = degSum [(1, 2)] 1 - routedDeg [(1, 2)] [] 1 ∧ (0 : Int) ≤ 1) :=
  ⟨C9_gate_counter_invariant.1 [(1, (0, 0, 0)), (2, (0, 1, 1))] [(1, 2)]
      (1, 2, 2) [0],
   C9_gate_counter_invariant.2.2.2.2
     (initOpt (mkBoard [(1, (0, 0, 0)), (2, (0, 1, 1))] [(1, 2)] (1, 2, 2)) [0])
     1 1
     (C9_gate_counter_invariant.1 [(1, (0, 0, 0)), (2, (0, 1, 1))] [(1, 2)]
       (1, 2, 2) [0])
     (by decide)⟩

end CircuitBoard

namespace CircuitBoard

/-! ### C5: straight-line paths -/

/-- Coordinate within the board's dimensions. -/
def withinDims (dims c : Coord) : Prop :=
  c.1 < dims.1 ∧ c.2.1 < dims.2.1 ∧ c.2.2 < dims.2.2

/-- An axis-parallel (straight) segment: at least two of the three axes
agree. -/
def straight (s e : Coord) : Prop :=
  (s.1 = e.1 ∧ s.2.1 = e.2.1) ∨ (s.1 = e.1 ∧ s.2.2 = e.2.2) ∨
  (s.2.1 = e.2.1 ∧ s.2.2 = e.2.2)

/-- Walk `j` cells from `a` toward `b` along one axis, stopping at `b`. -/
def interp (a b j : Nat) : Nat :=
  if a ≤ b then min (a + j) b else max (a - j) b

/-- The `j`-th cell of the straight segment from `s` to `e`. -/
def linePoint (s e : Coord) (j : Nat) : Coord :=
  (interp s.1 e.1 j, interp s.2.1 e.2.1 j, interp s.2.2 e.2.2 j)

theorem interp_zero (a b : Nat) : interp a b 0 = a := by
  unfold interp
  split <;> omega

theorem interp_self (a j : Nat) : interp a a j = a := by
  unfold interp
  split <;> omega

theorem interp_dist_left (a b j : Nat) :
    Nat.dist a (interp a b j) = min j (Nat.dist a b) := by
  unfold interp Nat.dist
  split <;> omega

theorem interp_dist_right (a b j : Nat) :
    Nat.dist (interp a b j) b = Nat.dist a b - min j (Nat.dist a b) := by
  unfold interp Nat.dist
  split <;> omega

theorem interp_step_dist (a b j : Nat) (h : j < Nat.dist a b) :
    Nat.dist (interp a b j) (interp a b (j + 1)) = 1 := by
  unfold interp Nat.dist at *
  split <;> omega

theorem interp_bounds (a b j : Nat) :
    min a b ≤ interp a b j ∧ interp a b j ≤ max a b := by
  unfold interp
  split <;> omega

theorem interp_ge (a b j : Nat) (h : Nat.dist a b ≤ j) : interp a b j = b := by
  unfold interp Nat.dist at *
  split <;> omega

theorem linePoint_zero (s e : Coord) : linePoint s e 0 = s := by
  unfold linePoint
  rw [interp_zero, interp_zero, interp_zero]

theorem linePoint_last (s e : Coord) :
    linePoint s e (manhattan s e) = e := by
  unfold linePoint manhattan
  rw [interp_ge _ _ _ (by omega), interp_ge _ _ _ (by omega),
    interp_ge _ _ _ (by omega)]

theorem manhattan_linePoint_left (s e : Coord) (hstr : straight s e) (j : Nat)
    (hj : j ≤ manhattan s e) : manhattan s (linePoint s e j) = j := by
  unfold manhattan at *
  unfold linePoint
  show Nat.dist s.1 (interp s.1 e.1 j) + Nat.dist s.2.1 (interp s.2.1 e.2.1 j) +
    Nat.dist s.2.2 (interp s.2.2 e.2.2 j) = j
  rw [interp_dist_left, interp_dist_left, interp_dist_left]
  rcases hstr with ⟨h1, h2⟩ | ⟨h1, h2⟩ | ⟨h1, h2⟩ <;>
    rw [h1, h2] at hj ⊢ <;> simp only [Nat.dist_self] at hj ⊢ <;> omega

theorem manhattan_linePoint_right (s e : Coord) (hstr : straight s e) (j : Nat)
    (hj : j ≤ manhattan s e) :
    manhattan (linePoint s e j) e = manhattan s e - j := by
  unfold manhattan at *
  unfold linePoint
  show Nat.dist (interp s.1 e.1 j) e.1 + Nat.dist (interp s.2.1 e.2.1 j) e.2.1 +
    Nat.dist (interp s.2.2 e.2.2 j) e.2.2 = _
  rw [interp_dist_right, interp_dist_right, interp_dist_right]
  rcases hstr with ⟨h1, h2⟩ | ⟨h1, h2⟩ | ⟨h1, h2⟩ <;>
    rw [h1, h2] at hj ⊢ <;> simp only [Nat.dist_self] at hj ⊢ <;> omega

theorem linePoint_inj (s e : Coord) (hstr : straight s e) (j j2 : Nat)
    (hj : j ≤ manhattan s e) (hj2 : j2 ≤ manhattan s e)
    (h : linePoint s e j = linePoint s e j2) : j = j2 := by
  have h1 := manhattan_linePoint_left s e hstr j hj
  have h2 := manhattan_linePoint_left s e hstr j2 hj2
  rw [h] at h1
  omega

theorem linePoint_within (dims s e : Coord) (hs : withinDims dims s)
    (he : withinDims dims e) (j : Nat) : withinDims dims (linePoint s e j) := by
  obtain ⟨hs1, hs2, hs3⟩ := hs
  obtain ⟨he1, he2, he3⟩ := he
  have b1 := interp_bounds s.1 e.1 j
  have b2 := interp_bounds s.2.1 e.2.1 j
  have b3 := interp_bounds s.2.2 e.2.2 j
  exact ⟨by simp only [linePoint]; omega, by simp only [linePoint]; omega,
    by simp only [linePoint]; omega⟩

theorem linePoint_adj (s e : Coord) (hstr : straight s e) (j : Nat)
    (hj : j + 1 ≤ manhattan s e) :
    oneAxisUnit (linePoint s e j) (linePoint s e (j + 1)) := by
  unfold manhattan at hj
  unfold oneAxisUnit linePoint
  rcases hstr with ⟨h1, h2⟩ | ⟨h1, h2⟩ | ⟨h1, h2⟩
  · refine Or.inr (Or.inr ⟨?_, ?_, ?_⟩)
    · show interp s.1 e.1 j = interp s.1 e.1 (j + 1)
      rw [h1, interp_self, interp_self]
    · show interp s.2.1 e.2.1 j = interp s.2.1 e.2.1 (j + 1)
      rw [h2, interp_self, interp_self]
    · apply interp_step_dist
      rw [h1, h2] at hj
      simp only [Nat.dist_self] at hj
      omega
  · refine Or.inr (Or.inl ⟨?_, ?_, ?_⟩)
    · show interp s.1 e.1 j = interp s.1 e.1 (j + 1)
      rw [h1, interp_self, interp_self]
    · apply interp_step_dist
      rw [h1, h2] at hj
      simp only [Nat.dist_self] at hj
      omega
    · show interp s.2.2 e.2.2 j = interp s.2.2 e.2.2 (j + 1)
      rw [h2, interp_self, interp_self]
  · refine Or.inl ⟨?_, ?_, ?_⟩
    · apply interp_step_dist
      rw [h1, h2] at hj
      simp only [Nat.dist_self] at hj
      omega
    · show interp s.2.1 e.2.1 j = interp s.2.1 e.2.1 (j + 1)
      rw [h1, interp_self, interp_self]
    · show interp s.2.2 e.2.2 j = interp s.2.2 e.2.2 (j + 1)
      rw [h2, interp_self, interp_self]

end CircuitBoard

namespace CircuitBoard

theorem mem_ite_cond {α : Type} {c : Bool} (x : α) (h : c = true) :
    x ∈ (if c then [x] else []) := by
  rw [if_pos h]
  exact List.mem_singleton.mpr rfl

theorem mem_rawNeighbors (b : Board) (u v : Coord)
    (hu : withinDims b.dimensions u) (hw : withinDims b.dimensions v)
    (hv : getCell b.board v.1 v.2.1 v.2.2 = "__")
    (ha : oneAxisUnit u v) : v ∈ rawNeighbors b u := by
  obtain ⟨uz, ux, uy⟩ := u
  obtain ⟨vz, vx, vy⟩ := v
  obtain ⟨hu1, hu2, hu3⟩ := hu
  obtain ⟨hw1, hw2, hw3⟩ := hw
  replace hu1 : uz < b.dimensions.1 := hu1
  replace hu2 : ux < b.dimensions.2.1 := hu2
  replace hu3 : uy < b.dimensions.2.2 := hu3
  replace hw1 : vz < b.dimensions.1 := hw1
  replace hw2 : vx < b.dimensions.2.1 := hw2
  replace hw3 : vy < b.dimensions.2.2 := hw3
  unfold rawNeighbors
  dsimp only
  simp only [List.mem_append]
  rcases ha with ⟨h1, h2, h3⟩ | ⟨h1, h2, h3⟩ | ⟨h1, h2, h3⟩
  · simp only at h1 h2 h3
    subst h2; subst h3
    have hcase : vz = uz + 1 ∨ uz = vz + 1 := by
      unfold Nat.dist at h1; omega
    rcases hcase with hc | hc
    · refine Or.inl (Or.inl (Or.inl (Or.inl (Or.inl ?_))))
      subst hc
      apply mem_ite_cond
      simp only [Bool.and_eq_true, decide_eq_true_eq, beq_iff_eq]
      exact ⟨by omega, hv⟩
    · refine Or.inl (Or.inl (Or.inl (Or.inl (Or.inr ?_))))
      have hvz : vz = uz - 1 := by omega
      subst hvz
      apply mem_ite_cond
      simp only [Bool.and_eq_true, decide_eq_true_eq, beq_iff_eq]
      exact ⟨⟨by omega, by omega⟩, hv⟩
  · simp only at h1 h2 h3
    subst h1; subst h3
    have hcase : vx = ux + 1 ∨ ux = vx + 1 := by
      unfold Nat.dist at h2; omega
    rcases hcase with hc | hc
    · refine Or.inl (Or.inl (Or.inl (Or.inr ?_)))
      subst hc
      apply mem_ite_cond
      simp only [Bool.and_eq_true, decide_eq_true_eq, beq_iff_eq]
      exact ⟨by omega, hv⟩
    · refine Or.inl (Or.inl (Or.inr ?_))
      have hvx : vx = ux - 1 := by omega
      subst hvx
      apply mem_ite_cond
      simp only [Bool.and_eq_true, decide_eq_true_eq, beq_iff_eq]
      exact ⟨⟨by omega, by omega⟩, hv⟩
  · simp only at h1 h2 h3
    subst h1; subst h2
    have hcase : vy = uy + 1 ∨ uy = vy + 1 := by
      unfold Nat.dist at h3; omega
    rcases hcase with hc | hc
    · refine Or.inl (Or.inr ?_)
      subst hc
      apply mem_ite_cond
      simp only [Bool.and_eq_true, decide_eq_true_eq, beq_iff_eq]
      exact ⟨by omega, hv⟩
    · refine Or.inr ?_
      have hvy : vy = uy - 1 := by omega
      subst hvy
      apply mem_ite_cond
      simp only [Bool.and_eq_true, decide_eq_true_eq, beq_iff_eq]
      exact ⟨⟨by omega, by omega⟩, hv⟩

theorem manhattan_triangle (a c d : Coord) :
    manhattan a d ≤ manhattan a c + manhattan c d := by
  unfold manhattan Nat.dist
  omega

theorem manhattan_comm (a c : Coord) : manhattan a c = manhattan c a := by
  unfold manhattan
  rw [Nat.dist_comm, Nat.dist_comm (a.2.1), Nat.dist_comm (a.2.2)]

end CircuitBoard

namespace CircuitBoard

theorem dictGet_some_mem {α β : Type} [DecidableEq α] (m : List (α × β))
    (k : α) (v : β) (h : dictGet m k = some v) : (k, v) ∈ m := by
  induction m with
  | nil => cases h
  | cons kv rest ih =>
    obtain ⟨k0, v0⟩ := kv
    unfold dictGet at h
    by_cases he : k0 = k
    · rw [if_pos he] at h
      cases h
      subst he
      exact List.mem_cons_self _ _
    · rw [if_neg he] at h
      exact List.mem_cons_of_mem _ (ih h)

theorem dictGet_of_mem_nodup {α β : Type} [DecidableEq α] (m : List (α × β))
    (k : α) (v : β) (hmem : (k, v) ∈ m) (hnd : (m.map Prod.fst).Nodup) :
    dictGet m k = some v := by
  induction m with
  | nil => cases hmem
  | cons kv rest ih =>
    obtain ⟨k0, v0⟩ := kv
    rw [List.map_cons, List.nodup_cons] at hnd
    rcases List.mem_cons.mp hmem with h1 | h1
    · cases h1
      unfold dictGet
      rw [if_pos rfl]
    · unfold dictGet
      by_cases he : k0 = k
      · exfalso
        apply hnd.1
        rw [he]
        exact List.mem_map.mpr ⟨(k, v), h1, rfl⟩
      · rw [if_neg he]
        exact ih h1 hnd.2

theorem dictSet_keys_nodup {α β : Type} [DecidableEq α] (m : List (α × β))
    (k : α) (v : β) (hnd : (m.map Prod.fst).Nodup) :
    ((dictSet m k v).map Prod.fst).Nodup := by
  rw [dictSet_keys]
  by_cases hs : (dictGet m k).isSome
  · rw [if_pos hs]
    exact hnd
  · rw [if_neg hs]
    apply List.Nodup.append hnd (List.nodup_singleton k)
    intro a ha hb
    rcases List.mem_singleton.mp hb with rfl
    apply hs
    rw [dictGet_isSome_iff_mem_keys]
    exact ha

theorem dictSet_length_eq {α β : Type} [DecidableEq α] (m : List (α × β))
    (k : α) (v : β) :
    (dictSet m k v).length =
      (if (dictGet m k).isSome then m.length else m.length + 1) := by
  have h := congrArg List.length (dictSet_keys m k v)
  rw [List.length_map] at h
  rw [h]
  by_cases hs : (dictGet m k).isSome
  · rw [if_pos hs, if_pos hs, List.length_map]
  · rw [if_neg hs, if_neg hs, List.length_append, List.length_map]
    rfl

theorem minEntry_min (l : List (Coord × Nat)) (kv : Coord × Nat)
    (h : minEntry l = some kv) : ∀ kv2 ∈ l, kv.2 ≤ kv2.2 := by
  have main : ∀ (l2 : List (Coord × Nat)) (acc : Option (Coord × Nat)),
      l2.foldl (fun acc kv2 =>
        match acc with
        | none => some kv2
        | some best => if kv2.2 < best.2 then some kv2 else acc) acc = some kv →
      (∀ kv2 ∈ l2, kv.2 ≤ kv2.2) ∧ (∀ a, acc = some a → kv.2 ≤ a.2) := by
    intro l2
    induction l2 with
    | nil =>
      intro acc h2
      replace h2 : acc = some kv := h2
      refine ⟨fun kv2 hkv2 => absurd hkv2 (List.not_mem_nil _), ?_⟩
      intro a ha
      rw [ha] at h2
      cases h2
      exact le_refl _
    | cons x rest ih =>
      intro acc h2
      obtain ⟨ih1, ih2⟩ := ih _ h2
      cases acc with
      | none =>
        have hx : kv.2 ≤ x.2 := ih2 x rfl
        refine ⟨?_, ?_⟩
        · intro kv2 hkv2
          rcases List.mem_cons.mp hkv2 with h3 | h3
          · rw [h3]; exact hx
          · exact ih1 kv2 h3
        · intro a ha; cases ha
      | some best =>
        by_cases hl : x.2 < best.2
        · have hx : kv.2 ≤ x.2 := by
            apply ih2
            show (if x.2 < best.2 then some x else some best) = some x
            rw [if_pos hl]
          refine ⟨?_, ?_⟩
          · intro kv2 hkv2
            rcases List.mem_cons.mp hkv2 with h3 | h3
            · rw [h3]; exact hx
            · exact ih1 kv2 h3
          · intro a ha
            cases ha
            omega
        · have hb : kv.2 ≤ best.2 := by
            apply ih2
            show (if x.2 < best.2 then some x else some best) = some best
            rw [if_neg hl]
          refine ⟨?_, ?_⟩
          · intro kv2 hkv2
            rcases List.mem_cons.mp hkv2 with h3 | h3
            · rw [h3]; omega
            · exact ih1 kv2 h3
          · intro a ha
            cases ha
            exact hb
  exact (main l none h).1

theorem minEntry_isSome_of_ne_nil (l : List (Coord × Nat)) (h : l ≠ []) :
    (minEntry l).isSome := by
  have main : ∀ (l2 : List (Coord × Nat)) (acc : Option (Coord × Nat)),
      acc.isSome →
      (l2.foldl (fun acc kv2 =>
        match acc with
        | none => some kv2
        | some best => if kv2.2 < best.2 then some kv2 else acc) acc).isSome := by
    intro l2
    induction l2 with
    | nil => intro acc ha; exact ha
    | cons x rest ih =>
      intro acc ha
      apply ih
      cases acc with
      | none => rfl
      | some best =>
        show (if x.2 < best.2 then some x else some best).isSome
        by_cases hl : x.2 < best.2
        · rw [if_pos hl]; rfl
        · rw [if_neg hl]; rfl
  cases l with
  | nil => exact absurd rfl h
  | cons x rest =>
    show (rest.foldl _ (some x)).isSome
    exact main rest (some x) rfl

/-- Every coordinate within the given dimensions, as a list. -/
def allCells (dims : Coord) : List Coord :=
  (List.range dims.1).flatMap (fun z =>
    (List.range dims.2.1).flatMap (fun x =>
      (List.range dims.2.2).map (fun y => (z, x, y))))

theorem mem_allCells (dims c : Coord) :
    c ∈ allCells dims ↔ withinDims dims c := by
  obtain ⟨cz, cx, cy⟩ := c
  unfold allCells withinDims
  simp only [List.mem_flatMap, List.mem_map, List.mem_range, Prod.mk.injEq]
  constructor
  · rintro ⟨z, hz, x, hx, y, hy, rfl, rfl, rfl⟩
    exact ⟨hz, hx, hy⟩
  · rintro ⟨hz, hx, hy⟩
    exact ⟨cz, hz, cx, hx, cy, hy, rfl, rfl, rfl⟩

theorem sum_map_const_range (n k : Nat) :
    ((List.range n).map (fun _ => k)).sum = n * k := by
  induction n with
  | zero => simp
  | succ n ih =>
    rw [List.range_succ, List.map_append, List.sum_append, ih, List.map_cons,
      List.map_nil, List.sum_cons, List.sum_nil]
    ring

theorem length_allCells (dims : Coord) :
    (allCells dims).length = dims.1 * dims.2.1 * dims.2.2 := by
  unfold allCells
  rw [List.length_flatMap]
  have h3 : List.map
      (List.length ∘ fun (z : Nat) =>
        (List.range dims.2.1).flatMap fun x =>
          List.map (fun y => (z, x, y)) (List.range dims.2.2))
      (List.range dims.1) =
      (List.range dims.1).map (fun _ => dims.2.1 * dims.2.2) := by
    apply List.map_congr_left
    intro z _
    show ((List.range dims.2.1).flatMap fun x =>
      List.map (fun y => (z, x, y)) (List.range dims.2.2)).length = _
    rw [List.length_flatMap]
    have h2 : List.map
        (List.length ∘ fun (x : Nat) =>
          List.map (fun y => (z, x, y)) (List.range dims.2.2))
        (List.range dims.2.1) =
        (List.range dims.2.1).map (fun _ => dims.2.2) := by
      apply List.map_congr_left
      intro x _
      show (List.map (fun y => (z, x, y)) (List.range dims.2.2)).length = _
      rw [List.length_map, List.length_range]
    rw [h2, sum_map_const_range]
  rw [h3, sum_map_const_range]
  ring

theorem nodup_within_length_le (dims : Coord) (l : List Coord)
    (hnd : l.Nodup) (hw : ∀ x ∈ l, withinDims dims x) :
    l.length ≤ dims.1 * dims.2.1 * dims.2.2 := by
  rw [← length_allCells]
  apply List.Subperm.length_le
  apply List.Nodup.subperm hnd
  intro x hx
  rw [mem_allCells]
  exact hw x hx

end CircuitBoard

namespace CircuitBoard

theorem contains_true_mem {α : Type} [BEq α] [LawfulBEq α] (l : List α)
    (a : α) (h : l.contains a = true) : a ∈ l := by
  induction l with
  | nil => cases h
  | cons x rest ih =>
    rw [List.contains_cons] at h
    rcases Bool.or_eq_true_iff.mp h with h1 | h1
    · rw [eq_of_beq h1]
      exact List.mem_cons_self _ _
    · exact List.mem_cons_of_mem _ (ih h1)

theorem rawNeighbors_within (b : Board) (u v : Coord)
    (hu : withinDims b.dimensions u) (h : v ∈ rawNeighbors b u) :
    withinDims b.dimensions v := by
  obtain ⟨nz, nx, ny⟩ := u
  obtain ⟨hu1, hu2, hu3⟩ := hu
  replace hu1 : nz < b.dimensions.1 := hu1
  replace hu2 : nx < b.dimensions.2.1 := hu2
  replace hu3 : ny < b.dimensions.2.2 := hu3
  unfold rawNeighbors at h
  simp only [List.mem_append] at h
  rcases h with ((((h | h) | h) | h) | h) | h <;>
    obtain ⟨hc, hv⟩ := mem_ite_singleton _ _ _ h <;>
    subst hv <;>
    simp only [Bool.and_eq_true, decide_eq_true_eq] at hc <;>
    exact ⟨by dsimp only; omega, by dsimp only; omega, by dsimp only; omega⟩

/-- The extended A* invariant for the straight-line analysis: the soundness
invariant plus bookkeeping about the open and closed sets, the f/g score
relationship, lower bounds on recorded g-scores, and the back-pointer count
bound that makes reconstruction fuel sufficient. -/
structure XInv (b : Board) (start goal : Coord) (st : AState) : Prop where
  sinv : SInv b start st
  opW : ∀ x ∈ st.op, withinDims b.dimensions x
  clW : ∀ x ∈ st.cl, withinDims b.dimensions x
  clN : st.cl.Nodup
  opN : st.op.Nodup
  disj : ∀ x ∈ st.op, x ∉ st.cl
  fg : ∀ x fv, dictGet st.f x = some fv →
    ∃ gv, dictGet st.g x = some gv ∧ fv = gv + manhattan x goal
  fN : (st.f.map Prod.fst).Nodup
  gLow : ∀ x v, dictGet st.g x = some v → manhattan start x ≤ v
  gBound : ∀ x v, dictGet st.g x = some v → v ≤ st.cf.length

theorem expandStep_XInv (b : Board) (start goal current : Coord) (st : AState)
    (nb : Coord) (inv : XInv b start goal st) (hnb : stepOK b current nb)
    (hcur : current ∈ st.cl) (hcw : withinDims b.dimensions current)
    (st2 : AState) (h : expandStep goal current st nb = .ok st2) :
    XInv b start goal st2 ∧ st2.cl = st.cl ∧ (∀ x ∈ st.op, x ∈ st2.op) ∧
      (∀ x v, dictGet st.g x = some v → manhattan start x = v →
        dictGet st2.g x = some v) ∧
      dictGet st2.g current = dictGet st.g current := by
  obtain ⟨hs, hcl2, hgcur⟩ :=
    expandStep_SInv b start goal current st nb inv.sinv hnb hcur st2 h
  have hnbw : withinDims b.dimensions nb :=
    rawNeighbors_within b current nb hcw (node_neighbors_subset_raw b current nb hnb)
  by_cases hmem : st.cl.contains nb
  · unfold expandStep at h
    rw [if_pos hmem] at h
    cases h
    exact ⟨inv, rfl, fun x hx => hx, fun x v hv _ => hv, rfl⟩
  · have hmemF : st.cl.contains nb = false := by
      cases hv : st.cl.contains nb
      · rfl
      · exact absurd hv hmem
    have hnbcl : nb ∉ st.cl := contains_false_not_mem _ _ hmemF
    have hop2 : ∀ x, x ∈ (if st.op.contains nb then st.op else st.op ++ [nb]) ↔
        (x ∈ st.op ∨ x = nb) := by
      intro x
      by_cases hc : st.op.contains nb
      · rw [if_pos hc]
        constructor
        · exact Or.inl
        · intro hx
          rcases hx with hx | hx
          · exact hx
          · rw [hx]
            exact contains_true_mem _ _ hc
      · rw [if_neg hc]
        rw [List.mem_append, List.mem_singleton]
    have hop2W : ∀ x ∈ (if st.op.contains nb then st.op else st.op ++ [nb]),
        withinDims b.dimensions x := by
      intro x hx
      rcases (hop2 x).mp hx with hx | hx
      · exact inv.opW x hx
      · rw [hx]
        exact hnbw
    have hop2N : (if st.op.contains nb then st.op else st.op ++ [nb]).Nodup := by
      by_cases hc : st.op.contains nb
      · rw [if_pos hc]
        exact inv.opN
      · rw [if_neg hc]
        apply List.Nodup.append inv.opN (List.nodup_singleton nb)
        intro x2 hx2 hb2
        have hx2nb : x2 = nb := List.mem_singleton.mp hb2
        rw [hx2nb] at hx2
        exact (contains_false_not_mem _ _ (by
          cases hv2 : st.op.contains nb
          · rfl
          · exact absurd hv2 hc)) hx2
    have hop2D : ∀ x ∈ (if st.op.contains nb then st.op else st.op ++ [nb]),
        x ∉ st.cl := by
      intro x hx
      rcases (hop2 x).mp hx with hx | hx
      · exact inv.disj x hx
      · rw [hx]
        exact hnbcl
    cases hgc : dictGet st.g current with
    | none =>
      unfold expandStep at h
      rw [if_neg hmem, hgc] at h
      cases h
    | some gc =>
      rw [expandStep_eq goal current st nb gc hmemF hgc] at h
      have hone : manhattan current nb = 1 := stepOK_manhattan b current nb hnb
      by_cases hskip : gc + manhattan current nb ≥ (dictGet st.g nb).getD 1000
      · rw [if_pos hskip] at h
        cases h
        refine ⟨⟨hs, hop2W, inv.clW, inv.clN, hop2N, hop2D, inv.fg, inv.fN,
          inv.gLow, inv.gBound⟩, rfl, ?_, ?_, ?_⟩
        · intro x hx
          exact (hop2 x).mpr (Or.inl hx)
        · intro x v hv _
          exact hv
        · exact hgcur.trans hgc
      · rw [if_neg hskip] at h
        cases h
        have htent : gc + manhattan current nb < (dictGet st.g nb).getD 1000 := by
          omega
        have hgclow : manhattan start current ≤ gc := inv.gLow current gc hgc
        have htlow : manhattan start nb ≤ gc + manhattan current nb := by
          have := manhattan_triangle start current nb
          omega
        refine ⟨⟨hs, hop2W, inv.clW, inv.clN, hop2N, hop2D, ?_, ?_, ?_, ?_⟩,
          rfl, ?_, ?_, ?_⟩
        · intro x fv hfv
          by_cases hx : nb = x
          · subst hx
            rw [dictGet_dictSet_self] at hfv
            cases hfv
            refine ⟨gc + manhattan current nb, ?_, rfl⟩
            show dictGet (dictSet st.g nb _) nb = _
            rw [dictGet_dictSet_self]
          · rw [dictGet_dictSet_ne _ _ _ _ hx] at hfv
            obtain ⟨gv, hgv, hrel⟩ := inv.fg x fv hfv
            refine ⟨gv, ?_, hrel⟩
            show dictGet (dictSet st.g nb _) x = _
            rw [dictGet_dictSet_ne _ _ _ _ hx]
            exact hgv
        · exact dictSet_keys_nodup _ _ _ inv.fN
        · intro x v hv
          by_cases hx : nb = x
          · subst hx
            rw [dictGet_dictSet_self] at hv
            cases hv
            exact htlow
          · rw [dictGet_dictSet_ne _ _ _ _ hx] at hv
            exact inv.gLow x v hv
        · intro x v hv
          have hlen := dictSet_length_eq st.cf nb current
          by_cases hx : nb = x
          · subst hx
            rw [dictGet_dictSet_self] at hv
            cases hv
            show gc + manhattan current nb ≤ (dictSet st.cf nb current).length
            cases hcfnb : dictGet st.cf nb with
            | some p =>
              have hsome : (dictGet st.cf nb).isSome := by rw [hcfnb]; rfl
              rw [if_pos hsome] at hlen
              obtain ⟨dp, hdp, hdn⟩ := inv.sinv.cfG nb p hcfnb
              have hb1 := inv.gBound nb (dp + 1) hdn
              rw [hdn] at htent
              simp only [Option.getD_some] at htent
              omega
            | none =>
              have hsome : ¬ (dictGet st.cf nb).isSome := by rw [hcfnb]; intro hcon; cases hcon
              rw [if_neg hsome] at hlen
              have hb1 := inv.gBound current gc hgc
              omega
          · rw [dictGet_dictSet_ne _ _ _ _ hx] at hv
            have := inv.gBound x v hv
            show v ≤ (dictSet st.cf nb current).length
            by_cases hsome : (dictGet st.cf nb).isSome
            · rw [if_pos hsome] at hlen
              omega
            · rw [if_neg hsome] at hlen
              omega
        · intro x hx
          exact (hop2 x).mpr (Or.inl hx)
        · intro x v hv hopt
          have hxnb : nb ≠ x := by
            intro he
            subst he
            rw [hv] at htent
            simp only [Option.getD_some] at htent
            omega
          show dictGet (dictSet st.g nb _) x = some v
          rw [dictGet_dictSet_ne _ _ _ _ hxnb]
          exact hv
        · exact hgcur.trans hgc

end CircuitBoard

namespace CircuitBoard

theorem expandLoop_XInv (b : Board) (start goal current : Coord) :
    ∀ (nbs : List Coord) (st : AState), XInv b start goal st →
      (∀ nb ∈ nbs, stepOK b current nb) → current ∈ st.cl →
      withinDims b.dimensions current →
      ∀ st2, expandLoop goal current st nbs = .ok st2 →
        XInv b start goal st2 ∧ st2.cl = st.cl ∧
          (∀ x ∈ st.op, x ∈ st2.op) ∧
          (∀ x v, dictGet st.g x = some v → manhattan start x = v →
            dictGet st2.g x = some v) ∧
          dictGet st2.g current = dictGet st.g current := by
  intro nbs
  induction nbs with
  | nil =>
    intro st inv _ _ _ st2 h
    cases h
    exact ⟨inv, rfl, fun x hx => hx, fun x v hv _ => hv, rfl⟩
  | cons nb rest ih =>
    intro st inv hnbs hcur hcw st2 h
    rw [expandLoop] at h
    cases hstep : expandStep goal current st nb with
    | error e => rw [hstep] at h; cases h
    | ok st1 =>
      rw [hstep] at h
      obtain ⟨inv1, hcl1, hop1, hstab1, hgc1⟩ :=
        expandStep_XInv b start goal current st nb inv
          (hnbs nb (List.mem_cons_self _ _)) hcur hcw st1 hstep
      obtain ⟨inv2, hcl2, hop2, hstab2, hgc2⟩ := ih st1 inv1
        (fun nb2 hnb2 => hnbs nb2 (List.mem_cons_of_mem _ hnb2))
        (hcl1 ▸ hcur) hcw st2 h
      refine ⟨inv2, hcl2.trans hcl1, ?_, ?_, hgc2.trans hgc1⟩
      · intro x hx
        exact hop2 x (hop1 x hx)
      · intro x v hv hopt
        exact hstab2 x v (hstab1 x v hv hopt) hopt

theorem expandStep_target (b : Board) (start goal current : Coord)
    (st : AState) (nb : Coord) (inv : XInv b start goal st)
    (hnbcl : nb ∉ st.cl) (gc : Nat) (hgc : dictGet st.g current = some gc)
    (hone : manhattan current nb = 1)
    (hexact : manhattan start nb = gc + 1) (hcap : gc + 1 < 1000)
    (st2 : AState) (h : expandStep goal current st nb = .ok st2) :
    dictGet st2.g nb = some (gc + 1) ∧ nb ∈ st2.op := by
  have hmemF : st.cl.contains nb = false := by
    cases hv : st.cl.contains nb
    · rfl
    · exact absurd (contains_true_mem _ _ hv) hnbcl
  rw [expandStep_eq goal current st nb gc hmemF hgc, hone] at h
  have hopmem : nb ∈ (if st.op.contains nb then st.op else st.op ++ [nb]) := by
    by_cases hc : st.op.contains nb
    · rw [if_pos hc]
      exact contains_true_mem _ _ hc
    · rw [if_neg hc]
      exact List.mem_append_right _ (List.mem_singleton.mpr rfl)
  by_cases hskip : gc + 1 ≥ (dictGet st.g nb).getD 1000
  · rw [if_pos hskip] at h
    cases h
    cases hnbg : dictGet st.g nb with
    | none =>
      rw [hnbg] at hskip
      simp only [Option.getD_none] at hskip
      omega
    | some v =>
      have hge := inv.gLow nb v hnbg
      rw [hexact] at hge
      rw [hnbg] at hskip
      simp only [Option.getD_some] at hskip
      have hveq : v = gc + 1 := by omega
      refine ⟨?_, hopmem⟩
      rw [hveq]
  · rw [if_neg hskip] at h
    cases h
    refine ⟨?_, hopmem⟩
    show dictGet (dictSet st.g nb (gc + 1)) nb = some (gc + 1)
    rw [dictGet_dictSet_self]

theorem expandLoop_target (b : Board) (start goal current : Coord)
    (tgt : Coord) (hone : manhattan current tgt = 1) :
    ∀ (nbs : List Coord) (st : AState), XInv b start goal st →
      (∀ nb ∈ nbs, stepOK b current nb) → current ∈ st.cl →
      withinDims b.dimensions current → tgt ∈ nbs → tgt ∉ st.cl →
      ∀ gc, dictGet st.g current = some gc →
      manhattan start tgt = gc + 1 → gc + 1 < 1000 →
      ∀ st2, expandLoop goal current st nbs = .ok st2 →
        dictGet st2.g tgt = some (gc + 1) ∧ tgt ∈ st2.op := by
  intro nbs
  induction nbs with
  | nil =>
    intro st _ _ _ _ htgt
    cases htgt
  | cons nb rest ih =>
    intro st inv hnbs hcur hcw htgt htcl gc hgc hexact hcap st2 h
    rw [expandLoop] at h
    cases hstep : expandStep goal current st nb with
    | error e => rw [hstep] at h; cases h
    | ok st1 =>
      rw [hstep] at h
      obtain ⟨inv1, hcl1, hop1, hstab1, hgc1⟩ :=
        expandStep_XInv b start goal current st nb inv
          (hnbs nb (List.mem_cons_self _ _)) hcur hcw st1 hstep
      by_cases hnbt : nb = tgt
      · subst hnbt
        obtain ⟨hg1, hopmem1⟩ := expandStep_target b start goal current st nb
          inv htcl gc hgc hone hexact hcap st1 hstep
        obtain ⟨_, _, hop2, hstab2, _⟩ :=
          expandLoop_XInv b start goal current rest st1 inv1
            (fun nb2 hnb2 => hnbs nb2 (List.mem_cons_of_mem _ hnb2))
            (hcl1 ▸ hcur) hcw st2 h
        refine ⟨?_, hop2 nb hopmem1⟩
        apply hstab2 nb (gc + 1) hg1
        exact hexact
      · have htgt2 : tgt ∈ rest := by
          rcases List.mem_cons.mp htgt with h1 | h1
          · exact absurd h1.symm hnbt
          · exact h1
        exact ih st1 inv1
          (fun nb2 hnb2 => hnbs nb2 (List.mem_cons_of_mem _ hnb2))
          (hcl1 ▸ hcur) hcw htgt2 (hcl1 ▸ htcl) gc (hgc1.trans hgc)
          hexact hcap st2 h

end CircuitBoard

namespace CircuitBoard

theorem searchLoop_succ (b : Board) (goal : Coord) (fuel : Nat) (st : AState)
    (hne : st.op.isEmpty = false) :
    searchLoop b goal (fuel + 1) st =
      (match minEntry (st.f.filter (fun kv => st.op.contains kv.1)) with
       | none => .pyerr
       | some (current, _) =>
         if current = goal then
           match reconstruct_path st.cf (st.cf.length + 1) current with
           | some p => .found p
           | none => .outOfFuel
         else
           match expandLoop goal current
               { st with op := st.op.erase current, cl := st.cl ++ [current] }
               (node_neighbors b current) with
           | .error _ => .pyerr
           | .ok st2 => searchLoop b goal fuel st2) := by
  rw [searchLoop, if_neg (by intro hc; rw [hne] at hc; cases hc)]

theorem expandStep_ok (goal current : Coord) (st : AState) (nb : Coord)
    (hne : nb ≠ current) (gc : Nat) (hgc : dictGet st.g current = some gc) :
    ∃ st2, expandStep goal current st nb = .ok st2 ∧
      dictGet st2.g current = some gc := by
  by_cases hmem : st.cl.contains nb
  · refine ⟨st, ?_, hgc⟩
    unfold expandStep
    rw [if_pos hmem]
  · have hmemF : st.cl.contains nb = false := by
      cases hv : st.cl.contains nb
      · rfl
      · exact absurd hv hmem
    rw [expandStep_eq goal current st nb gc hmemF hgc]
    by_cases hskip : gc + manhattan current nb ≥ (dictGet st.g nb).getD 1000
    · rw [if_pos hskip]
      exact ⟨_, rfl, hgc⟩
    · rw [if_neg hskip]
      refine ⟨_, rfl, ?_⟩
      show dictGet (dictSet st.g nb _) current = some gc
      rw [dictGet_dictSet_ne _ _ _ _ hne]
      exact hgc

theorem expandLoop_ok (goal current : Coord) :
    ∀ (nbs : List Coord) (st : AState), (∀ nb ∈ nbs, nb ≠ current) →
      ∀ gc, dictGet st.g current = some gc →
      ∃ st2, expandLoop goal current st nbs = .ok st2 := by
  intro nbs
  induction nbs with
  | nil => intro st _ gc _; exact ⟨st, rfl⟩
  | cons nb rest ih =>
    intro st hne gc hgc
    obtain ⟨st1, hstep, hgc1⟩ := expandStep_ok goal current st nb
      (hne nb (List.mem_cons_self _ _)) gc hgc
    obtain ⟨st2, hloop⟩ := ih st1
      (fun nb2 hnb2 => hne nb2 (List.mem_cons_of_mem _ hnb2)) gc hgc1
    refine ⟨st2, ?_⟩
    rw [expandLoop, hstep]
    exact hloop

theorem node_neighbors_ne_self (b : Board) (current nb : Coord)
    (h : nb ∈ node_neighbors b current) : nb ≠ current := by
  intro he
  have h1 := stepOK_manhattan b current nb h
  rw [he, manhattan_self] at h1
  cases h1

theorem recon_total (b : Board) (start : Coord) (st : AState)
    (inv : SInv b start st) :
    ∀ (fuel : Nat) (n : Coord) (v : Nat), dictGet st.g n = some v →
      v + 1 ≤ fuel →
      ∃ p, reconstruct_path st.cf fuel n = some p ∧ p.length = v + 1 := by
  intro fuel
  induction fuel with
  | zero => intro n v _ h2; omega
  | succ fuel ih =>
    intro n v hg hle
    rw [reconstruct_path]
    cases hcf : dictGet st.cf n with
    | none =>
      have hns : n = start := by
        by_contra hne
        have := inv.gKeyCf n hne (by rw [hg]; rfl)
        rw [hcf] at this
        cases this
      subst hns
      rw [inv.startG] at hg
      cases hg
      exact ⟨[n], rfl, rfl⟩
    | some parent =>
      obtain ⟨dp, hdp, hdn⟩ := inv.cfG n parent hcf
      rw [hg] at hdn
      have hv : v = dp + 1 := Option.some.inj hdn
      subst hv
      obtain ⟨rest, hrest, hlen⟩ := ih parent dp hdp (by omega)
      refine ⟨n :: rest, ?_, by rw [List.length_cons, hlen]⟩
      show (match reconstruct_path st.cf fuel parent with
        | some rest2 => some (n :: rest2)
        | none => none) = some (n :: rest)
      rw [hrest]

end CircuitBoard

namespace CircuitBoard

theorem lineSearch (b : Board) (start goal : Coord)
    (hgk : gateKeyed b) (hstr : straight start goal)
    (hsw : withinDims b.dimensions start) (hgw : withinDims b.dimensions goal)
    (hvac : ∀ j, j ≤ manhattan start goal →
      getCell b.board (linePoint start goal j).1
        (linePoint start goal j).2.1 (linePoint start goal j).2.2 = "__")
    (hcap : manhattan start goal ≤ 999) :
    ∀ (fuel : Nat) (st : AState), XInv b start goal st →
      (∃ k, k ≤ manhattan start goal ∧
        dictGet st.g (linePoint start goal k) = some k ∧
        linePoint start goal k ∈ st.op ∧
        (∀ j, k < j → j ≤ manhattan start goal →
          linePoint start goal j ∉ st.cl)) →
      b.dimensions.1 * b.dimensions.2.1 * b.dimensions.2.2 + 1 ≤
        fuel + st.cl.length →
      ∃ p, searchLoop b goal fuel st = .found p ∧
        p.length = manhattan start goal + 1 := by
  intro fuel
  induction fuel with
  | zero =>
    intro st inv _ hcount
    exfalso
    have hple := nodup_within_length_le b.dimensions st.cl inv.clN inv.clW
    omega
  | succ fuel ih =>
    intro st inv hwit hcount
    obtain ⟨k, hkm, hkg, hkop, hkcl⟩ := hwit
    have hef : st.op.isEmpty = false := by
      cases hv : st.op.isEmpty
      · rfl
      · exfalso
        have hemp : st.op = [] := List.isEmpty_iff.mp hv
        rw [hemp] at hkop
        cases hkop
    rw [searchLoop_succ b goal fuel st hef]
    have hfk : dictGet st.f (linePoint start goal k) =
        some (manhattan start goal) := by
      have h1 : (dictGet st.g (linePoint start goal k)).isSome := by
        rw [hkg]; rfl
      have h2 : (dictGet st.f (linePoint start goal k)).isSome :=
        (SInv_gf_iff b start st inv.sinv _).mpr h1
      cases hf : dictGet st.f (linePoint start goal k) with
      | none => rw [hf] at h2; cases h2
      | some fv =>
        obtain ⟨gv, hgv, hrel⟩ := inv.fg _ fv hf
        have hgvk : gv = k := Option.some.inj (hgv.symm.trans hkg)
        have hmk := manhattan_linePoint_right start goal hstr k hkm
        have hfv : fv = manhattan start goal := by
          rw [hgvk, hmk] at hrel
          omega
        rw [hfv]
    have hfmem : (linePoint start goal k, manhattan start goal) ∈
        st.f.filter (fun kv => st.op.contains kv.1) := by
      apply List.mem_filter.mpr
      exact ⟨dictGet_some_mem _ _ _ hfk, mem_contains_true _ _ hkop⟩
    cases hm : minEntry (st.f.filter (fun kv => st.op.contains kv.1)) with
    | none =>
      exfalso
      have hsome := minEntry_isSome_of_ne_nil _ (List.ne_nil_of_mem hfmem)
      rw [hm] at hsome
      cases hsome
    | some cv =>
      obtain ⟨current, fv⟩ := cv
      show ∃ p, (if current = goal then
          match reconstruct_path st.cf (st.cf.length + 1) current with
          | some q => SearchRes.found q
          | none => SearchRes.outOfFuel
        else
          match expandLoop goal current
              { st with op := st.op.erase current, cl := st.cl ++ [current] }
              (node_neighbors b current) with
          | .error _ => SearchRes.pyerr
          | .ok st2 => searchLoop b goal fuel st2) = .found p ∧
        p.length = manhattan start goal + 1
      have hminle : fv ≤ manhattan start goal :=
        minEntry_min _ _ hm (linePoint start goal k, manhattan start goal) hfmem
      have hmemf2 := List.mem_filter.mp (minEntry_mem _ _ hm)
      have hcurop : current ∈ st.op := contains_true_mem _ _ hmemf2.2
      have hfcur : dictGet st.f current = some fv :=
        dictGet_of_mem_nodup _ _ _ hmemf2.1 inv.fN
      obtain ⟨gv, hgv, hrel⟩ := inv.fg current fv hfcur
      have hglow := inv.gLow current gv hgv
      by_cases hgoal : current = goal
      · subst hgoal
        rw [if_pos rfl]
        rw [manhattan_self] at hrel
        have hgvm : gv = manhattan start current := by omega
        have hbound := inv.gBound current gv hgv
        obtain ⟨p, hrec, hlen⟩ := recon_total b start st inv.sinv
          (st.cf.length + 1) current gv hgv (by omega)
        refine ⟨p, ?_, by rw [hlen, hgvm]⟩
        rw [hrec]
      · rw [if_neg hgoal]
        have hcw : withinDims b.dimensions current := inv.opW current hcurop
        have hcurncl : current ∉ st.cl := inv.disj current hcurop
        have inv1 : XInv b start goal
            { st with op := st.op.erase current, cl := st.cl ++ [current] } := by
          refine ⟨⟨inv.sinv.startG, inv.sinv.startCf, inv.sinv.cfStep,
            fun n p2 hp => List.mem_append_left _ (inv.sinv.cfCl n p2 hp),
            inv.sinv.cfG, inv.sinv.gKeyCf, inv.sinv.keysEq⟩,
            ?_, ?_, ?_, ?_, ?_, inv.fg, inv.fN, inv.gLow, inv.gBound⟩
          · intro x hx
            exact inv.opW x (List.mem_of_mem_erase hx)
          · intro x hx
            rcases List.mem_append.mp hx with h1 | h1
            · exact inv.clW x h1
            · rw [List.mem_singleton.mp h1]
              exact hcw
          · exact List.Nodup.append inv.clN (List.nodup_singleton current)
              (by
                intro a ha hb
                rw [List.mem_singleton.mp hb] at ha
                exact hcurncl ha)
          · exact inv.opN.erase current
          · intro x hx
            have hx2 := (List.Nodup.mem_erase_iff inv.opN).mp hx
            intro hc
            rcases List.mem_append.mp hc with h1 | h1
            · exact inv.disj x hx2.2 h1
            · exact hx2.1 (List.mem_singleton.mp h1)
        have hcur1 : current ∈ st.cl ++ [current] :=
          List.mem_append_right _ (List.mem_singleton.mpr rfl)
        obtain ⟨st2, hx⟩ := expandLoop_ok goal current
          (node_neighbors b current)
          { st with op := st.op.erase current, cl := st.cl ++ [current] }
          (fun nb hnb => node_neighbors_ne_self b current nb hnb) gv hgv
        obtain ⟨inv2, hcl2, hop2, hstab2, hgcur2⟩ :=
          expandLoop_XInv b start goal current (node_neighbors b current)
            _ inv1 (fun nb hnb => hnb) hcur1 hcw st2 hx
        have hcl2len : st2.cl.length = st.cl.length + 1 := by
          rw [hcl2]
          show (st.cl ++ [current]).length = _
          rw [List.length_append]
          rfl
        by_cases hline : ∃ j, j ≤ manhattan start goal ∧
            current = linePoint start goal j
        · obtain ⟨j, hjm, hcur⟩ := hline
          have hj1 : manhattan start current = j := by
            rw [hcur]
            exact manhattan_linePoint_left start goal hstr j hjm
          have hj2 : manhattan current goal = manhattan start goal - j := by
            rw [hcur]
            exact manhattan_linePoint_right start goal hstr j hjm
          have hgvj : gv = j := by
            rw [hj2] at hrel
            rw [hj1] at hglow
            omega
          have hjltm : j < manhattan start goal := by
            by_contra hnj
            have hjem : j = manhattan start goal := by omega
            apply hgoal
            rw [hcur, hjem, linePoint_last]
          by_cases hjk : j < k
          · have hLkne : linePoint start goal k ≠ current := by
              rw [hcur]
              intro he
              have := linePoint_inj start goal hstr k j hkm hjm he
              omega
            have hkop2 : linePoint start goal k ∈ st2.op := by
              apply hop2
              show linePoint start goal k ∈ st.op.erase current
              exact (List.mem_erase_of_ne hLkne).mpr hkop
            have hkg2 : dictGet st2.g (linePoint start goal k) = some k :=
              hstab2 _ k hkg (manhattan_linePoint_left start goal hstr k hkm)
            have hkcl2 : ∀ j2, k < j2 → j2 ≤ manhattan start goal →
                linePoint start goal j2 ∉ st2.cl := by
              intro j2 hj2a hj2b
              rw [hcl2]
              intro hc
              rcases List.mem_append.mp hc with h1 | h1
              · exact hkcl j2 hj2a hj2b h1
              · have h2 := List.mem_singleton.mp h1
                rw [hcur] at h2
                have := linePoint_inj start goal hstr j2 j hj2b hjm h2
                omega
            obtain ⟨p, hp, hplen⟩ := ih st2 inv2
              ⟨k, hkm, hkg2, hkop2, hkcl2⟩ (by omega)
            refine ⟨p, ?_, hplen⟩
            rw [hx]
            exact hp
          · have hone2 : manhattan current (linePoint start goal (j + 1)) = 1 := by
              rw [hcur]
              exact oneAxisUnit_manhattan
                (linePoint_adj start goal hstr j (by omega))
            have htgtmem : linePoint start goal (j + 1) ∈
                node_neighbors b current := by
              rw [node_neighbors_eq_raw b hgk]
              apply mem_rawNeighbors b current _ hcw
                (linePoint_within b.dimensions start goal hsw hgw (j + 1))
                (hvac (j + 1) (by omega))
              rw [hcur]
              exact linePoint_adj start goal hstr j (by omega)
            have htgtcl : linePoint start goal (j + 1) ∉ st.cl ++ [current] := by
              intro hc
              rcases List.mem_append.mp hc with h1 | h1
              · exact hkcl (j + 1) (by omega) (by omega) h1
              · have h2 := List.mem_singleton.mp h1
                rw [hcur] at h2
                have := linePoint_inj start goal hstr (j + 1) j
                  (by omega) hjm h2
                omega
            obtain ⟨htg, htop⟩ := expandLoop_target b start goal current
              (linePoint start goal (j + 1)) hone2
              (node_neighbors b current) _ inv1 (fun nb hnb => hnb)
              hcur1 hcw htgtmem htgtcl gv hgv
              (by
                rw [hgvj]
                exact manhattan_linePoint_left start goal hstr (j + 1) (by omega))
              (by omega) st2 hx
            rw [hgvj] at htg
            have hkcl2 : ∀ j2, j + 1 < j2 → j2 ≤ manhattan start goal →
                linePoint start goal j2 ∉ st2.cl := by
              intro j2 hj2a hj2b
              rw [hcl2]
              intro hc
              rcases List.mem_append.mp hc with h1 | h1
              · exact hkcl j2 (by omega) hj2b h1
              · have h2 := List.mem_singleton.mp h1
                rw [hcur] at h2
                have := linePoint_inj start goal hstr j2 j hj2b hjm h2
                omega
            obtain ⟨p, hp, hplen⟩ := ih st2 inv2
              ⟨j + 1, by omega, htg, htop, hkcl2⟩ (by omega)
            refine ⟨p, ?_, hplen⟩
            rw [hx]
            exact hp
        · have hLkne : linePoint start goal k ≠ current := by
            intro he
            exact hline ⟨k, hkm, he.symm⟩
          have hkop2 : linePoint start goal k ∈ st2.op := by
            apply hop2
            show linePoint start goal k ∈ st.op.erase current
            exact (List.mem_erase_of_ne hLkne).mpr hkop
          have hkg2 : dictGet st2.g (linePoint start goal k) = some k :=
            hstab2 _ k hkg (manhattan_linePoint_left start goal hstr k hkm)
          have hkcl2 : ∀ j2, k < j2 → j2 ≤ manhattan start goal →
              linePoint start goal j2 ∉ st2.cl := by
            intro j2 hj2a hj2b
            rw [hcl2]
            intro hc
            rcases List.mem_append.mp hc with h1 | h1
            · exact hkcl j2 hj2a hj2b h1
            · exact hline ⟨j2, hj2b, (List.mem_singleton.mp h1).symm⟩
          obtain ⟨p, hp, hplen⟩ := ih st2 inv2
            ⟨k, hkm, hkg2, hkop2, hkcl2⟩ (by omega)
          refine ⟨p, ?_, hplen⟩
          rw [hx]
          exact hp

end CircuitBoard

namespace CircuitBoard

theorem XInv_init (b : Board) (start goal : Coord)
    (hsw : withinDims b.dimensions start) :
    XInv b start goal
      { cl := [], op := [start], cf := [],
        g := [(start, 0)], f := [(start, manhattan start goal)] } := by
  refine ⟨SInv_init b start goal, ?_, ?_, ?_, ?_, ?_, ?_, ?_, ?_, ?_⟩
  · intro x hx
    rw [List.mem_singleton.mp hx]
    exact hsw
  · intro x hx
    cases hx
  · exact List.nodup_nil
  · exact List.nodup_singleton start
  · intro x _ hc
    cases hc
  · intro x fv hfv
    show ∃ gv, dictGet [(start, 0)] x = some gv ∧ fv = gv + manhattan x goal
    unfold dictGet at hfv ⊢
    by_cases he : start = x
    · rw [if_pos he] at hfv ⊢
      cases hfv
      refine ⟨0, rfl, ?_⟩
      rw [← he]
      omega
    · rw [if_neg he] at hfv
      replace hfv : (none : Option Nat) = some fv := hfv
      cases hfv
  · exact List.nodup_singleton start
  · intro x v hv
    unfold dictGet at hv
    by_cases he : start = x
    · rw [if_pos he] at hv
      cases hv
      rw [← he, manhattan_self]
    · rw [if_neg he] at hv
      replace hv : (none : Option Nat) = some v := hv
      cases hv
  · intro x v hv
    unfold dictGet at hv
    by_cases he : start = x
    · rw [if_pos he] at hv
      cases hv
      exact Nat.le_refl 0
    · rw [if_neg he] at hv
      replace hv : (none : Option Nat) = some v := hv
      cases hv

/-- C5 amended: for start and goal joined by an unobstructed axis-parallel
straight line of Empty cells within the grid (on a board whose
`needs_connections` keys are gate ids, as every board the program builds is),
with the line no longer than the 1000-sentinel allows, the search succeeds
and returns a path whose number of nodes is the 3D Manhattan distance PLUS
ONE: the path includes both endpoints, so it has `manhattan` segments and
`manhattan + 1` coordinates. -/
theorem C5_straight_line_manhattan_plus_one (b : Board) (start goal : Coord)
    (hgk : gateKeyed b) (hstr : straight start goal)
    (hsw : withinDims b.dimensions start) (hgw : withinDims b.dimensions goal)
    (hvac : ∀ j, j ≤ manhattan start goal →
      getCell b.board (linePoint start goal j).1
        (linePoint start goal j).2.1 (linePoint start goal j).2.2 = "__")
    (hcap : manhattan start goal ≤ 999) :
    ∃ p, search start goal b (boardFuel b) = .found p ∧
      p.length = manhattan start goal + 1 := by
  show ∃ p, searchLoop b goal (boardFuel b)
    { cl := [], op := [start], cf := [],
      g := [(start, 0)], f := [(start, manhattan start goal)] } = .found p ∧
    p.length = manhattan start goal + 1
  apply lineSearch b start goal hgk hstr hsw hgw hvac hcap (boardFuel b) _
    (XInv_init b start goal hsw)
  · refine ⟨0, Nat.zero_le _, ?_, ?_, ?_⟩
    · rw [linePoint_zero]
      show dictGet [(start, 0)] start = some 0
      unfold dictGet
      rw [if_pos rfl]
    · rw [linePoint_zero]
      exact List.mem_singleton.mpr rfl
    · intro j _ _
      exact List.not_mem_nil _
  · show b.dimensions.1 * b.dimensions.2.1 * b.dimensions.2.2 + 1 ≤
      boardFuel b + 0
    unfold boardFuel
    omega

/-- C5: FALSIFIED AS STATED (corrected).  On the gate-free 1x1x3 board
`corr`, cells (0,0,0) and (0,0,1) are joined by an unobstructed straight
line of Empty cells and their Manhattan distance is 1, but the search
returns the two-node path [(0,0,1), (0,0,0)] — both endpoints included —
whose length is 2, not 1. -/
theorem C5_straight_line_length_counterexample :
    straight (0, 0, 0) (0, 0, 1) ∧
    (∀ j, j ≤ manhattan ((0, 0, 0) : Coord) (0, 0, 1) →
      getCell corr.board (linePoint (0, 0, 0) (0, 0, 1) j).1
        (linePoint (0, 0, 0) (0, 0, 1) j).2.1
        (linePoint (0, 0, 0) (0, 0, 1) j).2.2 = "__") ∧
    search (0, 0, 0) (0, 0, 1) corr (boardFuel corr) =
      .found [(0, 0, 1), (0, 0, 0)] ∧
    ([(0, 0, 1), (0, 0, 0)] : List Coord).length ≠
      manhattan (0, 0, 0) (0, 0, 1) := by
  refine ⟨?_, ?_, ?_, ?_⟩
  · unfold straight
    decide
  · decide
  · decide
  · decide

theorem C5_straight_line_manhattan_plus_one_witness :
    ∃ p, search (0, 0, 0) (0, 0, 2) corr (boardFuel corr) = .found p ∧
      p.length = manhattan (0, 0, 0) (0, 0, 2) + 1 :=
  C5_straight_line_manhattan_plus_one corr (0, 0, 0) (0, 0, 2)
    (mkBoard_gateKeyed [] [] (1, 1, 3)) (by unfold straight; decide)
    (by unfold withinDims; decide) (by unfold withinDims; decide)
    (by decide) (by decide)

end CircuitBoard
